import Mathlib

/-!
# Verification of the IRWebCrawler page-processing core

This development gives a shallow embedding, over `List Char`, of the
page-processing stage of the IRWebCrawler repository:

* `analytics.py` — the concurrent analytics aggregator (`Analytics.add_page`,
  `Analytics.defrag`, `Analytics.hostname`, `Analytics.clean_tokens`);
* `scraper.py`  — the entry point `scraper(url, resp)`, the scope validator
  `is_valid`, the trap guards `is_low_information_page` / `is_dead_200`,
  the scraper-side tokenizer, and the per-href canonicalization steps.

The repository delegates URL decomposition and relative-URL resolution to
Python's `urllib.parse`.  Those collaborators are modelled here faithfully
after CPython's implementation (`urlsplit`, `urlparse`, `urlunsplit`,
`urlunparse`, `urldefrag`, `urljoin`, `unquote`, `parse_qs`), with the
following documented simplifications: strings are ASCII `List Char`
(Python `str.lower`, `str.isspace`, percent-decoding are modelled for the
ASCII range; multi-byte UTF-8 percent-escapes are decoded bytewise); a
raised `ValueError` (mismatched brackets in a netloc) is an `Except.error`.

HTML parsing (`BeautifulSoup`) is an out-of-scope collaborator: a parsed
document is modelled as the visible text and href list it yields.
-/

set_option maxHeartbeats 1000000

namespace Crawler

abbrev Chars := List Char

/-! ## Character utilities (ASCII fragments of the Python `str` methods) -/

/-- ASCII lower-casing of one character, as `str.lower` acts on ASCII. -/
def lowerCh (c : Char) : Char :=
  if 'A' ≤ c ∧ c ≤ 'Z' then Char.ofNat (c.toNat + 32) else c

/-- ASCII lower-casing of a string. -/
def lowerL (s : Chars) : Chars := s.map lowerCh

def isAsciiAlpha (c : Char) : Bool :=
  ('a' ≤ c ∧ c ≤ 'z') ∨ ('A' ≤ c ∧ c ≤ 'Z')

def isAsciiDigit (c : Char) : Bool := '0' ≤ c ∧ c ≤ '9'

def isHexDigitCh (c : Char) : Bool :=
  isAsciiDigit c ∨ ('a' ≤ c ∧ c ≤ 'f') ∨ ('A' ≤ c ∧ c ≤ 'F')

def hexVal (c : Char) : Nat :=
  if isAsciiDigit c then c.toNat - '0'.toNat
  else if 'a' ≤ c ∧ c ≤ 'f' then c.toNat - 'a'.toNat + 10
  else c.toNat - 'A'.toNat + 10

/-- Python `str.isspace` restricted to ASCII whitespace. -/
def isPySpace (c : Char) : Bool :=
  c = ' ' ∨ c = '\t' ∨ c = '\n' ∨ c = '\x0b' ∨ c = '\x0c' ∨ c = '\r'

/-! ## List-of-characters utilities -/

/-- `hasPre p s` : `p` is a prefix of `s` (Python `str.startswith`). -/
def hasPre : Chars → Chars → Bool
  | [], _ => true
  | _ :: _, [] => false
  | p :: ps, c :: cs => p = c && hasPre ps cs

/-- `hasSuf p s` : `p` is a suffix of `s` (Python `str.endswith`). -/
def hasSuf (p s : Chars) : Bool := hasPre p.reverse s.reverse

/-- `hasSub p s` : `p` occurs as a contiguous substring of `s`
(Python `p in s`). -/
def hasSub (p : Chars) : Chars → Bool
  | [] => p = []
  | c :: cs => hasPre p (c :: cs) || hasSub p cs

/-- Split at the first occurrence of `c`: `(before, after)`, the separator
dropped; if `c` does not occur, `(s, none)`.  (Python `str.split(c, 1)` /
`str.partition`.) -/
def splitFirst (sep : Char) : Chars → Chars × Option Chars
  | [] => ([], none)
  | c :: cs =>
    if c = sep then ([], some cs)
    else
      let r := splitFirst sep cs
      (c :: r.1, r.2)

/-- Everything after the last occurrence of `sep`, or the whole string if
`sep` does not occur (Python `str.rpartition(sep)[2]`). -/
def afterLast (sep : Char) (s : Chars) : Chars :=
  ((splitFirst sep s.reverse).1).reverse

/-- Split on every occurrence of `sep` (Python `str.split(sep)`). -/
def splitAll (sep : Char) : Chars → List Chars
  | [] => [[]]
  | c :: cs =>
    let r := splitAll sep cs
    if c = sep then [] :: r
    else
      match r with
      | [] => [[c]]
      | h :: t => (c :: h) :: t

/-- Strip characters satisfying `p` from both ends (Python `str.strip`
with the corresponding character class). -/
def stripBy (p : Char → Bool) (s : Chars) : Chars :=
  ((s.dropWhile p).reverse.dropWhile p).reverse

/-! ## Model of CPython `urllib.parse`

The repository performs all URL decomposition through `urlparse`,
`urldefrag` and `urljoin`.  The definitions below follow the CPython
implementation (`Lib/urllib/parse.py`): `urlsplit` first strips
leading/trailing C0-control-or-space characters, removes every tab, CR
and LF, detects a scheme (first `:` with an ASCII-alpha first character
and scheme characters before it), splits a `//`-introduced netloc
(raising `ValueError` — here `Except.error ()` — on mismatched square
brackets), then splits the fragment at the first `#` and the query at
the first `?`.  `urlparse` additionally splits `;params` off the last
path segment for schemes in `uses_params`. -/

def isUnsafeUrlCh (c : Char) : Bool := c = '\t' ∨ c = '\r' ∨ c = '\n'

/-- WHATWG C0-control-or-space class, stripped from both ends by `urlsplit`. -/
def isC0OrSpace (c : Char) : Bool := c.toNat ≤ 32

def headIsAlpha : Chars → Bool
  | c :: _ => isAsciiAlpha c
  | [] => false

def headIsDigit : Chars → Bool
  | c :: _ => isAsciiDigit c
  | [] => false

def lastIsDigit (s : Chars) : Bool :=
  match s.getLast? with
  | some c => isAsciiDigit c
  | none => false

def schemeCh (c : Char) : Bool :=
  isAsciiAlpha c ∨ isAsciiDigit c ∨ c = '+' ∨ c = '-' ∨ c = '.'

/-- Scheme detection of `urlsplit`: `some (scheme.lower(), rest)` when the
input has a valid scheme, else `none`. -/
def splitScheme (u : Chars) : Option (Chars × Chars) :=
  match splitFirst ':' u with
  | (before, some after) =>
    if !before.isEmpty && headIsAlpha before && before.all schemeCh
    then some (lowerL before, after) else none
  | (_, none) => none

def netlocEnd (c : Char) : Bool := c = '/' ∨ c = '?' ∨ c = '#'

/-- `_splitnetloc` plus the bracket validation of `urlsplit`. -/
def splitNetloc (u : Chars) : Except Unit (Chars × Chars) :=
  if hasPre ['/', '/'] u then
    let rest := u.drop 2
    let nl := rest.takeWhile (fun c => !(netlocEnd c))
    let after := rest.dropWhile (fun c => !(netlocEnd c))
    if (hasSub ['['] nl ∧ ¬ hasSub [']'] nl) ∨ (hasSub [']'] nl ∧ ¬ hasSub ['['] nl)
    then .error () else .ok (nl, after)
  else .ok ([], u)

structure SplitResult where
  scheme : Chars
  netloc : Chars
  path : Chars
  query : Chars
  fragment : Chars
deriving DecidableEq

/-- Number denoted by a digit string. -/
def natOfDigits (s : Chars) : Nat :=
  s.foldl (fun a c => 10 * a + (c.toNat - 48)) 0

def headIsZero : Chars → Bool
  | '0' :: _ => true
  | _ => false

/-- One dotted-quad IPv4 component as `ipaddress` accepts it. -/
def ipv4Octet (p : Chars) : Bool :=
  !p.isEmpty && p.length ≤ 3 && p.all isAsciiDigit &&
  (p.length = 1 || headIsZero p = false) && natOfDigits p ≤ 255

/-- Dotted-quad IPv4 address. -/
def ipv4Addr (s : Chars) : Bool :=
  let ps := splitAll '.' s
  ps.length = 4 && ps.all ipv4Octet

/-- One 16-bit hextet of an IPv6 address. -/
def hexGroup (s : Chars) : Bool :=
  !s.isEmpty && s.length ≤ 4 && s.all isHexDigitCh

/-- Split at the first occurrence of the two-character sequence `a b`;
`none` when it does not occur. -/
def splitSub2 (a b : Char) : Chars → Option (Chars × Chars)
  | [] => none
  | [_] => none
  | c :: d :: rest =>
    if c = a ∧ d = b then some ([], rest)
    else match splitSub2 a b (d :: rest) with
      | some (l, r) => some (c :: l, r)
      | none => none

/-- Group list of one side of an IPv6 address; the last group of the right
side may be a dotted-quad (counting as two hextets). -/
def ipv6Side (s : Chars) (ipv4Tail : Bool) : Option Nat :=
  if s = [] then some 0
  else
    let gs := splitAll ':' s
    match gs.getLast? with
    | none => some 0
    | some last =>
      if gs.dropLast.all hexGroup then
        if hexGroup last then some gs.length
        else if ipv4Tail ∧ ipv4Addr last then some (gs.length + 1)
        else none
      else none

/-- IPv6 textual address (an optional nonempty `%zone` suffix is allowed,
as `ipaddress.IPv6Address` accepts scoped addresses). -/
def ipv6Addr (s : Chars) : Bool :=
  let az := splitFirst '%' s
  (match az.2 with | some z => !z.isEmpty | none => true) &&
  (let addr := az.1
   match splitSub2 ':' ':' addr with
   | some (l, r) =>
     if hasSub [':', ':'] r then false
     else match ipv6Side l false, ipv6Side r true with
       | some nl, some nr => nl + nr ≤ 7
       | _, _ => false
   | none =>
     match ipv6Side addr true with
     | some n => n = 8
     | none => false)

/-- CPython `_check_bracketed_host`: an IPvFuture literal
`v<hex>+.<rest>` or a valid IPv6 address; anything else (including a
bracketed IPv4 address) raises `ValueError`.  The `ipaddress` module's
address grammar is reproduced here only to the accuracy needed to decide
validity of ASCII literals; no theorem below depends on which bracketed
hosts are accepted. -/
def checkBracketedHost (h : Chars) : Bool :=
  match h with
  | 'v' :: rest =>
    let hex := rest.takeWhile isHexDigitCh
    let tail := rest.dropWhile isHexDigitCh
    !hex.isEmpty && (match tail with | '.' :: t => !t.isEmpty | _ => false)
  | _ => ipv6Addr h

/-- CPython `urlsplit(url, scheme=default, allow_fragments=True)`:
the URL is left-stripped of C0 controls and spaces, tabs/CRs/LFs are
removed everywhere, then scheme, netloc (with bracket validation),
fragment and query are split off.  (`_checknetloc` is a no-op on ASCII
input and is omitted.) -/
def urlsplitE (url0 defaultScheme : Chars) : Except Unit SplitResult :=
  let url1 := url0.dropWhile isC0OrSpace
  let url := url1.filter (fun c => !(isUnsafeUrlCh c))
  let defS := (stripBy isC0OrSpace defaultScheme).filter (fun c => !(isUnsafeUrlCh c))
  let sr := match splitScheme url with
    | some (s, r) => (s, r)
    | none => (defS, url)
  match splitNetloc sr.2 with
  | .error e => .error e
  | .ok (netloc, rest2) =>
    if hasSub ['['] netloc ∧ hasSub [']'] netloc ∧
        !(checkBracketedHost ((splitFirst ']' ((splitFirst '[' netloc).2.getD [])).1))
    then .error ()
    else
      let pf := splitFirst '#' rest2
      let pq := splitFirst '?' pf.1
      .ok ⟨sr.1, netloc, pq.1, pq.2.getD [], pf.2.getD []⟩

def usesParams : List Chars :=
  ["", "ftp", "hdl", "prospero", "http", "imap", "https", "shttp", "rtsp",
   "rtsps", "rtspu", "sip", "sips", "mms", "sftp", "tel"].map String.toList

def usesRelative : List Chars :=
  ["", "ftp", "http", "gopher", "nntp", "imap", "wais", "file", "https",
   "shttp", "mms", "prospero", "rtsp", "rtsps", "rtspu", "sftp", "svn",
   "svn+ssh", "ws", "wss"].map String.toList

def usesNetloc : List Chars :=
  ["", "ftp", "http", "gopher", "nntp", "telnet", "imap", "wais", "file",
   "mms", "https", "shttp", "snews", "prospero", "rtsp", "rtsps", "rtspu",
   "rsync", "svn", "svn+ssh", "sftp", "nfs", "git", "git+ssh", "ws",
   "wss"].map String.toList

/-- CPython `_splitparams`: split `;params` off the last path segment. -/
def splitParams (p : Chars) : Chars × Chars :=
  if hasSub ['/'] p then
    let afterSlash := afterLast '/' p
    match splitFirst ';' afterSlash with
    | (a1, some a2) => (p.take (p.length - afterSlash.length) ++ a1, a2)
    | (_, none) => (p, [])
  else
    match splitFirst ';' p with
    | (a1, some a2) => (a1, a2)
    | (_, none) => (p, [])

structure ParseResult where
  scheme : Chars
  netloc : Chars
  path : Chars
  params : Chars
  query : Chars
  fragment : Chars
deriving DecidableEq

/-- CPython `urlparse(url, scheme=default, allow_fragments=True)`. -/
def urlparseE (url defaultScheme : Chars) : Except Unit ParseResult :=
  match urlsplitE url defaultScheme with
  | .error e => .error e
  | .ok r =>
    if r.scheme ∈ usesParams ∧ hasSub [';'] r.path then
      let pp := splitParams r.path
      .ok ⟨r.scheme, r.netloc, pp.1, pp.2, r.query, r.fragment⟩
    else .ok ⟨r.scheme, r.netloc, r.path, [], r.query, r.fragment⟩

/-- CPython `urlunsplit`: `//` plus the netloc is prepended when a netloc
is present, or when the scheme is in `uses_netloc` and the path does not
already begin with `//`. -/
def urlunsplit (scheme netloc path query fragment : Chars) : Chars :=
  let u1 :=
    if netloc ≠ [] ∨ (scheme ≠ [] ∧ scheme ∈ usesNetloc ∧ path.take 2 ≠ ['/', '/']) then
      '/' :: '/' :: (netloc ++ (if path ≠ [] ∧ path.take 1 ≠ ['/'] then '/' :: path else path))
    else path
  let u2 := if scheme ≠ [] then scheme ++ ':' :: u1 else u1
  let u3 := if query ≠ [] then u2 ++ '?' :: query else u2
  if fragment ≠ [] then u3 ++ '#' :: fragment else u3

/-- CPython `urlunparse`. -/
def urlunparse (r : ParseResult) : Chars :=
  urlunsplit r.scheme r.netloc
    (if r.params ≠ [] then r.path ++ ';' :: r.params else r.path) r.query r.fragment

/-- CPython `urldefrag`: the fragment-stripped URL (re-parsing and
re-assembling only when a `#` is present). -/
def urldefragE (url : Chars) : Except Unit Chars :=
  if hasSub ['#'] url then
    match urlparseE url [] with
    | .error e => .error e
    | .ok r => .ok (urlunparse { r with fragment := [] })
  else .ok url

/-- The `hostname` property of a parse result (`_hostinfo` plus the
`hostname` property): part of the netloc after the last `@`, inside
brackets if present, otherwise before the first `:`; lower-cased up to a
`%` zone separator, whose tail keeps its case.  `None` is represented as
`[]`. -/
def hostnameOfNetloc (netloc : Chars) : Chars :=
  let hostinfo := afterLast '@' netloc
  let h := match splitFirst '[' hostinfo with
    | (_, some bracketed) => (splitFirst ']' bracketed).1
    | (_, none) => (splitFirst ':' hostinfo).1
  if h = [] then []
  else match splitFirst '%' h with
    | (before, some zone) => lowerL before ++ '%' :: zone
    | (before, none) => lowerL before

/-- CPython `unquote` on ASCII text: `%XX` hex escapes are decoded
bytewise, invalid escapes keep their `%` literally. -/
def unquoteL : Chars → Chars
  | [] => []
  | '%' :: h1 :: h2 :: rest =>
    if isHexDigitCh h1 ∧ isHexDigitCh h2 then
      Char.ofNat (16 * hexVal h1 + hexVal h2) :: unquoteL rest
    else '%' :: unquoteL (h1 :: h2 :: rest)
  | c :: rest => c :: unquoteL rest

/-- CPython `unquote_plus`: `+` becomes a space, then percent-decoding. -/
def unquotePlusL (s : Chars) : Chars :=
  unquoteL (s.map (fun c => if c = '+' then ' ' else c))

/-- The keys produced by `parse_qs(query)` (with default arguments):
`&`-separated components, only `name=value` pairs with a nonempty value
are kept, names are `unquote_plus`-decoded. -/
def parseQslKeys (query : Chars) : List Chars :=
  (splitAll '&' query).filterMap (fun comp =>
    match splitFirst '=' comp with
    | (k, some v) => if v ≠ [] then some (unquotePlusL k) else none
    | (_, none) => none)

def dedupAux (seen : List Chars) : List Chars → List Chars
  | [] => []
  | k :: rest => if k ∈ seen then dedupAux seen rest else k :: dedupAux (k :: seen) rest

/-- Distinct keys of `parse_qs(query)`, in first-appearance order. -/
def parseQsKeys (query : Chars) : List Chars := dedupAux [] (parseQslKeys query)

/-- Python `int(str)`: optional surrounding whitespace, optional sign,
a nonempty digit string with single underscores allowed between digits;
`none` models a raised `ValueError`. -/
def pyInt (s0 : Chars) : Option Int :=
  let s := stripBy isPySpace s0
  let sd : Int × Chars := match s with
    | '+' :: r => (1, r)
    | '-' :: r => (-1, r)
    | r => (1, r)
  let digits := sd.2
  if !digits.isEmpty && digits.all (fun c => isAsciiDigit c ∨ c = '_') &&
      headIsDigit digits && lastIsDigit digits && !hasSub ['_', '_'] digits
  then some (sd.1 * (digits.filter isAsciiDigit).foldl
      (fun a c => 10 * a + ((c.toNat : Int) - 48)) 0)
  else none

/-- `'/'.join` on segments. -/
def joinSegs : List Chars → Chars
  | [] => []
  | [s] => s
  | s :: rest => s ++ '/' :: joinSegs rest

/-- `segments[1:-1] = filter(None, segments[1:-1])` of `urljoin`. -/
def filterMiddle : List Chars → List Chars
  | [] => []
  | [x] => [x]
  | x :: rest =>
    match rest.getLast? with
    | none => [x]
    | some last => x :: ((rest.dropLast.filter (fun s => s ≠ [])) ++ [last])

/-- The `.`/`..` resolution loop of `urljoin` (`pop` on an empty list is
ignored, like the caught `IndexError`). -/
def resolveSegs (segs : List Chars) : List Chars :=
  segs.foldl (fun acc seg =>
    if seg = ['.', '.'] then acc.dropLast
    else if seg = ['.'] then acc
    else acc ++ [seg]) []

/-- CPython `urljoin(base, url)` (errors are the `ValueError`s of the two
`urlparse` calls). -/
def urljoinE (base url : Chars) : Except Unit Chars :=
  if base = [] then .ok url
  else if url = [] then .ok base
  else
    match urlparseE base [] with
    | .error e => .error e
    | .ok b =>
      match urlparseE url b.scheme with
      | .error e => .error e
      | .ok r =>
        if r.scheme ≠ b.scheme ∨ r.scheme ∉ usesRelative then .ok url
        else
          let netloc :=
            if r.scheme ∈ usesNetloc then
              (if r.netloc ≠ [] then r.netloc else b.netloc)
            else r.netloc
          if r.scheme ∈ usesNetloc ∧ r.netloc ≠ [] then
            .ok (urlunparse ⟨r.scheme, r.netloc, r.path, r.params, r.query, r.fragment⟩)
          else if r.path = [] ∧ r.params = [] then
            .ok (urlunparse ⟨r.scheme, netloc, b.path, b.params,
              (if r.query = [] then b.query else r.query), r.fragment⟩)
          else
            let baseParts := splitAll '/' b.path
            let baseParts' :=
              if baseParts.getLast? ≠ some [] then baseParts.dropLast else baseParts
            let segments :=
              if r.path.take 1 = ['/'] then splitAll '/' r.path
              else filterMiddle (baseParts' ++ splitAll '/' r.path)
            let resolved := resolveSegs segments
            let resolved' :=
              if segments.getLast? = some ['.'] ∨ segments.getLast? = some ['.', '.']
              then resolved ++ [[]] else resolved
            let joined := joinSegs resolved'
            .ok (urlunparse ⟨r.scheme, netloc,
              (if joined = [] then ['/'] else joined), r.params, r.query, r.fragment⟩)

/-! ## Model of `analytics.py`

`Analytics` state, `defrag`, `hostname`, `clean_tokens` and `add_page`.
Python sets and `Counter`/`defaultdict(set)` are represented as
insertion-ordered duplicate-free lists, which makes every state
component decidable for equality.  The two statements of `add_page` that
can raise a `ValueError` (the `urldefrag` call on a URL with a fragment,
and the `urlparse` inside `hostname`) are modelled by the `raised` flag
of the result; mutations already performed before the raise are kept,
as in Python. -/

structure Analytics where
  min_words : Nat
  unique_urls : List Chars
  word_freq : List (Chars × Nat)
  longest_url : Option Chars
  longest_word_count : Nat
  subdomain_pages : List (Chars × List Chars)
deriving DecidableEq

/-- `Analytics(min_words=50, ...)` as constructed at module import. -/
def analyticsInit : Analytics := ⟨50, [], [], none, 0, []⟩

/-- `Analytics.defrag`: `urldefrag(url)[0]`. -/
def defragE (url : Chars) : Except Unit Chars := urldefragE url

/-- `Analytics.hostname`: `(urlparse(url).hostname or "").lower()`. -/
def hostnameE (url : Chars) : Except Unit Chars :=
  match urlparseE url [] with
  | .error e => .error e
  | .ok r => .ok (lowerL (hostnameOfNetloc r.netloc))

/-- `Analytics.clean_tokens`: lower-case, drop empties, drop purely
numeric tokens, drop tokens of length ≤ 1. -/
def clean_tokens (tokens : List Chars) : List Chars :=
  tokens.filterMap (fun t0 =>
    let t := lowerL t0
    if t = [] then none
    else if t.all isAsciiDigit then none
    else if t.length ≤ 1 then none
    else some t)

/-- One `Counter.update` increment. -/
def bumpFreq (wf : List (Chars × Nat)) (t : Chars) : List (Chars × Nat) :=
  match wf with
  | [] => [(t, 1)]
  | (k, n) :: rest => if k = t then (k, n + 1) :: rest else (k, n) :: bumpFreq rest t

/-- `Counter.update(tokens)`. -/
def updateFreq (wf : List (Chars × Nat)) (ts : List Chars) : List (Chars × Nat) :=
  ts.foldl bumpFreq wf

/-- `self.subdomain_pages[host].add(url)` on the `defaultdict(set)`. -/
def addSub (sp : List (Chars × List Chars)) (host url : Chars) : List (Chars × List Chars) :=
  match sp with
  | [] => [(host, [url])]
  | (k, us) :: rest =>
    if k = host then (k, if url ∈ us then us else us ++ [url]) :: rest
    else (k, us) :: addSub rest host url

structure AddResult where
  state : Analytics
  raised : Bool
deriving DecidableEq

/-- `Analytics.add_page(url, tokens=tokens)`. -/
def add_page (s : Analytics) (url : Chars) (tokens : List Chars) : AddResult :=
  if url = [] then ⟨s, false⟩
  else
    match defragE url with
    | .error _ => ⟨s, true⟩
    | .ok url' =>
      let ts := clean_tokens tokens
      if ts.length < s.min_words then ⟨s, false⟩
      else if url' ∈ s.unique_urls then ⟨s, false⟩
      else
        let s1 := { s with unique_urls := s.unique_urls ++ [url'] }
        let s2 :=
          if ts.length > s1.longest_word_count then
            { s1 with longest_word_count := ts.length, longest_url := some url' }
          else s1
        let s3 := { s2 with word_freq := updateFreq s2.word_freq ts }
        match hostnameE url' with
        | .error _ => ⟨s3, true⟩
        | .ok host =>
          if host ≠ [] ∧ hasSuf ".uci.edu".toList host then
            ⟨{ s3 with subdomain_pages := addSub s3.subdomain_pages host url' }, false⟩
          else ⟨s3, false⟩

/-- A whole sequence of `add_page` calls (exceptions propagate to the
caller of `scraper`, not to later calls, so the sequence continues from
the state the raising call left behind). -/
def addPages (s : Analytics) : List (Chars × List Chars) → Analytics
  | [] => s
  | (u, ts) :: rest => addPages (add_page s u ts).state rest

/-- The admission decision of one `add_page` call, together with the
canonical URL and cleaned token count it records: `some (url', wc)`
exactly when the call inserts into `unique_urls`. -/
def stepAdmit (s : Analytics) (url : Chars) (tokens : List Chars) :
    Option (Chars × Nat) :=
  if url = [] then none
  else
    match defragE url with
    | .error _ => none
    | .ok url' =>
      let ts := clean_tokens tokens
      if ts.length < s.min_words then none
      else if url' ∈ s.unique_urls then none
      else some (url', ts.length)

/-- The pages a call sequence actually records, in order. -/
def admittedOf (s : Analytics) : List (Chars × List Chars) → List (Chars × Nat)
  | [] => []
  | (u, ts) :: rest =>
    match stepAdmit s u ts with
    | some p => p :: admittedOf (add_page s u ts).state rest
    | none => admittedOf (add_page s u ts).state rest

/-- The longest-page fold: replace only on strict improvement, exactly
as the comparison in `add_page` does. -/
def foldLongest (lu : Option Chars) (lwc : Nat) : List (Chars × Nat) → Option Chars × Nat
  | [] => (lu, lwc)
  | (u, w) :: rest =>
    if w > lwc then foldLongest (some u) w rest else foldLongest lu lwc rest

/-- Maximum of a list of counts. -/
def maxList (l : List Nat) : Nat := l.foldr max 0

/-! ## Model of `scraper.py` -/

/-- The ASCII apostrophe, written by code point to keep the stopword
contractions readable as list concatenations. -/
def apos : Char := Char.ofNat 39

/-- A stopword contraction `a + apostrophe + b`. -/
def ctr (a b : String) : Chars := a.toList ++ apos :: b.toList

/-- The fixed `STOPWORDS` set of `scraper.py`. -/
def STOPWORDS : List Chars :=
  (["a", "about", "above", "after", "again", "against", "all", "am", "an",
    "and", "any", "are", "as", "at", "be", "because", "been", "before",
    "being", "below", "between", "both", "but", "by", "cannot", "could",
    "did", "do", "does", "doing", "down", "during", "each", "few", "for",
    "from", "further", "had", "has", "have", "having", "he", "her", "here",
    "hers", "herself", "him", "himself", "his", "how", "i", "if", "in",
    "into", "is", "it", "its", "itself", "me", "more", "most", "my",
    "myself", "no", "nor", "not", "of", "off", "on", "once", "only", "or",
    "other", "ought", "our", "ours", "ourselves", "out", "over", "own",
    "same", "she", "should", "so", "some", "such", "than", "that", "the",
    "their", "theirs", "them", "themselves", "then", "there", "these",
    "they", "this", "those", "through", "to", "too", "under", "until",
    "up", "very", "was", "we", "were", "what", "when", "where", "which",
    "while", "who", "whom", "why", "with", "would", "you", "your",
    "yours", "yourself", "yourselves"].map String.toList) ++
  [ctr "aren" "t", ctr "can" "t", ctr "couldn" "t", ctr "didn" "t",
   ctr "doesn" "t", ctr "don" "t", ctr "hadn" "t", ctr "hasn" "t",
   ctr "haven" "t", ctr "he" "d", ctr "he" "ll", ctr "he" "s",
   ctr "here" "s", ctr "how" "s", ctr "i" "d", ctr "i" "ll", ctr "i" "m",
   ctr "i" "ve", ctr "isn" "t", ctr "it" "s", ctr "let" "s",
   ctr "mustn" "t", ctr "shan" "t", ctr "she" "d", ctr "she" "ll",
   ctr "she" "s", ctr "shouldn" "t", ctr "that" "s", ctr "there" "s",
   ctr "they" "d", ctr "they" "ll", ctr "they" "re", ctr "they" "ve",
   ctr "wasn" "t", ctr "we" "d", ctr "we" "ll", ctr "we" "re",
   ctr "we" "ve", ctr "weren" "t", ctr "what" "s", ctr "when" "s",
   ctr "where" "s", ctr "who" "s", ctr "why" "s", ctr "won" "t",
   ctr "wouldn" "t", ctr "you" "d", ctr "you" "ll", ctr "you" "re",
   ctr "you" "ve"]

def isAlnumCh (c : Char) : Bool := isAsciiAlpha c ∨ isAsciiDigit c

/-- `re.findall(r"[a-zA-Z0-9]+", text)`: the maximal alphanumeric runs
(`acc` holds the reversed run in progress). -/
def alnumRunsAux (acc : Chars) : Chars → List Chars
  | [] => if acc = [] then [] else [acc.reverse]
  | c :: rest =>
    if isAlnumCh c then alnumRunsAux (c :: acc) rest
    else if acc = [] then alnumRunsAux [] rest
    else acc.reverse :: alnumRunsAux [] rest

def alnumRuns (s : Chars) : List Chars := alnumRunsAux [] s

/-- `scraper.tokenize`: alphanumeric runs of the lower-cased text, with
stopwords removed. -/
def tokenize (text : Chars) : List Chars :=
  (alnumRuns (lowerL text)).filter (fun t => t ∉ STOPWORDS)

/-- `is_low_information_page`. -/
def is_low_information_page (token_count : Nat) : Bool := token_count < 10

/-- `is_dead_200(token_count, content_length)`. -/
def is_dead_200 (token_count : Nat) (content_length : Int) : Bool :=
  if token_count = 0 then true
  else if content_length > 0 ∧ content_length < 50 then true
  else false

/-- `get_subdomain`. -/
def get_subdomain (url : Chars) : Chars :=
  match urlparseE url [] with
  | .error _ => []
  | .ok r =>
    let hostname := lowerL (hostnameOfNetloc r.netloc)
    if hasSuf ".ics.uci.edu".toList hostname then "ics.uci.edu".toList
    else if hasSuf ".cs.uci.edu".toList hostname then "cs.uci.edu".toList
    else if hasSuf ".informatics.uci.edu".toList hostname then "informatics.uci.edu".toList
    else if hasSuf ".stat.uci.edu".toList hostname then "stat.uci.edu".toList
    else []

/-! ### `is_valid` -/

def allowed_domains : List Chars :=
  [".ics.uci.edu", ".cs.uci.edu", ".informatics.uci.edu",
   ".stat.uci.edu"].map String.toList

/-- RESTRICTION 2: `netloc.endswith(domain) or netloc == domain[1:]` for
one of the four allowed domains. -/
def validDomain (netloc : Chars) : Bool :=
  allowed_domains.any (fun d => hasSuf d netloc || netloc = d.drop 1)

/-- The calendar/event keyword search
`re.search(r'/(calendar|events?|archive|tag/talks|ical|outlook|\.ics)', p)`:
with the optional `s`, a match exists exactly when one of these literal
substrings occurs. -/
def calendarPathHit (p : Chars) : Bool :=
  ["/calendar", "/event", "/archive", "/tag/talks", "/ical", "/outlook",
   "/.ics"].any (fun w => hasSub w.toList p)

/-- The year-month date-pattern search of `is_valid` (slash, four
digits, a dash or slash separator, then at least one digit, anywhere in
the path). -/
def dateHitAt : Chars → Bool
  | '/' :: d1 :: d2 :: d3 :: d4 :: sep :: d5 :: _ =>
    isAsciiDigit d1 && isAsciiDigit d2 && isAsciiDigit d3 && isAsciiDigit d4 &&
    (sep = '-' || sep = '/') && isAsciiDigit d5
  | _ => false

def datePathHit : Chars → Bool
  | [] => false
  | c :: rest => dateHitAt (c :: rest) || datePathHit rest

/-- The year-month-day date-pattern search of `is_valid` (the variant
with a second separator and day digits; any of its matches is also a
match of the year-month pattern). -/
def isDateSep (c : Char) : Bool := c = '-' || c = '/'

/-- Month-and-day tail `[1-2 digits][sep][at least one digit]`. -/
def dayTail : Chars → Bool
  | m1 :: s2 :: d5 :: tail =>
    (isAsciiDigit m1 && isDateSep s2 && isAsciiDigit d5) ||
    (match tail with
     | d6 :: _ => isAsciiDigit m1 && isAsciiDigit s2 && isDateSep d5 && isAsciiDigit d6
     | [] => false)
  | _ => false

def dateDayHitAt (l : Chars) : Bool :=
  match l with
  | '/' :: d1 :: d2 :: d3 :: d4 :: sep :: rest =>
    isAsciiDigit d1 && isAsciiDigit d2 && isAsciiDigit d3 && isAsciiDigit d4 &&
    isDateSep sep && dayTail rest
  | _ => false

def datePathDayHit : Chars → Bool
  | [] => false
  | c :: rest => dateDayHitAt (c :: rest) || datePathDayHit rest

/-- The banned-extension alternation of RESTRICTION 3, with `jpe?g` and
`tiff?` expanded. -/
def bannedExts : List Chars :=
  ["css", "js", "bmp", "gif", "jpeg", "jpg", "ico", "png", "tiff", "tif",
   "mid", "mp2", "mp3", "mp4", "wav", "avi", "mov", "mpeg", "ram", "m4v",
   "mkv", "ogg", "ogv", "pdf", "ps", "eps", "tex", "ppt", "pptx", "doc",
   "docx", "xls", "xlsx", "names", "data", "dat", "exe", "bz2", "tar",
   "msi", "bin", "7z", "psd", "dmg", "iso", "epub", "dll", "cnf", "tgz",
   "sha1", "thmx", "mso", "arff", "rtf", "jar", "csv", "rm", "smil",
   "wmv", "swf", "wma", "zip", "rar", "gz"].map String.toList

/-- `re.match(r".*\.(…)$", p)`: `.*` cannot cross a newline and `$` also
matches just before a final newline, so the match target is `p` itself
when newline-free, or `p` minus a single trailing newline. -/
def extCandidate (p : Chars) : Option Chars :=
  if ¬ hasSub ['\n'] p then some p
  else if p.getLast? = some '\n' ∧ ¬ hasSub ['\n'] p.dropLast then some p.dropLast
  else none

def extBanned (p : Chars) : Bool :=
  match extCandidate p with
  | none => false
  | some s => bannedExts.any (fun e => hasSuf ('.' :: e) s)

/-- `re.match(r'^C=[DNMS];O=[AD]$', query)` on the raw (newline-free)
query: an exact Apache directory-listing sort pattern. -/
def apacheSortQuery (q : Chars) : Bool :=
  match q with
  | ['C', '=', c, ';', 'O', '=', o] =>
    (c = 'D' ∨ c = 'N' ∨ c = 'M' ∨ c = 'S') ∧ (o = 'A' ∨ o = 'D')
  | _ => false

def suspicious_params : List Chars :=
  ["session", "sid", "jsessionid", "phpsessid", "token", "auth",
   "timestamp", "replytocom", "uid", "startdt", "enddt"].map String.toList

def duplicate_params : List Chars :=
  ["sort", "order", "view", "filter", "page", "display",
   "action"].map String.toList

/-- RESTRICTION 4 (only evaluated when the query is nonempty). -/
def queryTraps (path_lower q : Chars) : Bool :=
  if apacheSortQuery q then true
  else
    let keys := parseQsKeys q
    if hasSuf "doku.php".toList path_lower ∧ "idx".toList ∈ keys then true
    else if keys.any (fun k => suspicious_params.any (fun s => hasSub s (lowerL k))) then true
    else if keys.length > 8 then true
    else if duplicate_params.any (fun d => d ∈ keys) then true
    else false

/-- `re.search(r'/(index|sitemap|page/\d+|default\.php)$', p)` at one
anchor position (the very end of the candidate string). -/
def indexSuffixHit (p : Chars) : Bool :=
  hasSuf "/index".toList p || hasSuf "/sitemap".toList p ||
  hasSuf "/default.php".toList p ||
  (let r := p.reverse
   let ds := r.takeWhile isAsciiDigit
   !ds.isEmpty && hasPre "/egap/".toList (r.drop ds.length))

/-- The same search with `$` also matching before a final newline. -/
def indexTrap (p : Chars) : Bool :=
  indexSuffixHit p ||
  (p.getLast? = some '\n' && indexSuffixHit p.dropLast)

/-- RESTRICTION 5 content-area substring filters. -/
def contentAreaHit (p : Chars) : Bool :=
  ["/login", "/logout", "/signin", "/signout", "/register", "/auth",
   "/download", "/print", "/share", "/export",
   "/api", "/json", "/xml", "/rss", "/feed", "/ajax",
   "/admin", "/wp-admin", "/wp-content", "/wp-includes",
   "/cart", "/checkout", "/account", "/profile"].any
    (fun w => hasSub w.toList p) ||
  hasSub "gallery".toList p || hasSub "attachment".toList p ||
  indexTrap p

/-- The checks of `is_valid` after a successful `urlparse` (none of the
remaining statements can raise). -/
def isValidChecks (url : Chars) (parsed : ParseResult) : Bool :=
  if ¬ (parsed.scheme = "http".toList ∨ parsed.scheme = "https".toList) then false
  else if ¬ validDomain parsed.netloc then false
  else
    let path_lower := lowerL (unquoteL parsed.path)
    let query_lower := lowerL (unquoteL parsed.query)
    let full_url_decoded := lowerL (unquoteL url)
    if calendarPathHit path_lower then false
    else if hasSub "ical".toList query_lower || hasSub "outlook".toList query_lower ||
        hasSub "gcal".toList query_lower then false
    else if ["?ical=", "&ical=", "outlook-ical"].any
        (fun k => hasSub k.toList full_url_decoded) then false
    else if datePathHit path_lower then false
    else if datePathDayHit path_lower then false
    else if extBanned path_lower then false
    else if parsed.query ≠ [] ∧ queryTraps path_lower parsed.query then false
    else if contentAreaHit path_lower then false
    else
      let path_parts := (splitAll '/' path_lower).filter (fun p => p ≠ [])
      if path_parts.length ≠ (dedupAux [] path_parts).length then false
      else if path_parts.length > 15 then false
      else if url.length > 200 then false
      else if path_parts.any (fun part => part.length > 80) then false
      else if parsed.fragment ≠ [] then false
      else true

/-- The body of `is_valid` inside its `try`: the only raising statement
is the initial `urlparse`. -/
def isValidE (url : Chars) : Except Unit Bool :=
  match urlparseE url [] with
  | .error e => .error e
  | .ok parsed => .ok (isValidChecks url parsed)

/-- `is_valid(url)`: the `except` clauses turn any raise into `False`. -/
def is_valid (url : Chars) : Bool :=
  match isValidE url with
  | .ok b => b
  | .error _ => false

/-! ### The `scraper` entry point

`BeautifulSoup` is an external collaborator: a successfully parsed
document is modelled by the visible text that `extract_visible_text`
returns for it and the list of `href` attribute values that
`soup.find_all("a", href=True)` yields; a `none` document models both
parsers raising.  The framework response object is modelled by its
`status`, an optional `raw_response` carrying the two headers the code
reads, the parse outcome of its content, and its optional final `url`
attribute. -/

structure Soup where
  text : Chars
  hrefs : List Chars
deriving DecidableEq

structure RawResponse where
  contentType : Option Chars
  contentLength : Option Chars
  soup : Option Soup
  urlAttr : Option Chars
deriving DecidableEq

structure Response where
  status : Int
  raw_response : Option RawResponse
deriving DecidableEq

/-- The module-level statistics of `scraper.py` together with the
`analytics` aggregator instance. -/
structure CrawlState where
  analytics : Analytics
  word_freq : List (Chars × Nat)
  unique_pages : List Chars
  pages_by_subdomain : List (Chars × Nat)
  url_inventory : List (Chars × Nat)
  longest_page : Chars × Nat
deriving DecidableEq

def crawlInit : CrawlState := ⟨analyticsInit, [], [], [], [], ([], 0)⟩

structure ScrapeResult where
  state : CrawlState
  links : List Chars
  raised : Bool
deriving DecidableEq

/-- Outcome of the per-href body of the link loop: skipped by a
`continue`, a canonical URL ready for `is_valid`, or an uncaught raise
(the `urldefrag` call sits outside the `try` around `urljoin`). -/
inductive HrefResult where
  | raised : HrefResult
  | skipped : HrefResult
  | canon (url : Chars) : HrefResult
deriving DecidableEq

/-- One iteration of the href loop: empty check, `strip`, the
`javascript:`/`mailto:`/`#` skip filter, `urljoin` (its exceptions are
caught), then `urldefrag` (uncaught). -/
def processHref (base href0 : Chars) : HrefResult :=
  if href0 = [] then .skipped
  else
    let href := stripBy isPySpace href0
    let low := lowerL href
    if hasPre "javascript:".toList low ∨ hasPre "mailto:".toList low ∨
        hasPre ['#'] href then .skipped
    else
      match urljoinE base href with
      | .error _ => .skipped
      | .ok j =>
        match urldefragE j with
        | .error _ => .raised
        | .ok d => .canon d

/-- The whole href loop: `none` when an iteration raises, otherwise the
canonical URLs that passed `is_valid`, in order. -/
def collectLinks (base : Chars) : List Chars → Option (List Chars)
  | [] => some []
  | h :: rest =>
    match processHref base h with
    | .raised => none
    | .skipped => collectLinks base rest
    | .canon c =>
      match collectLinks base rest with
      | none => none
      | some ls => some (if is_valid c then c :: ls else ls)

/-- `pages_by_subdomain[subdomain] = pages_by_subdomain.get(subdomain, 0) + 1`. -/
def bumpSub (sp : List (Chars × Nat)) (sd : Chars) : List (Chars × Nat) :=
  match sp with
  | [] => [(sd, 1)]
  | (k, n) :: rest => if k = sd then (k, n + 1) :: rest else (k, n) :: bumpSub rest sd

/-- `unique_pages.add(url)`. -/
def insertUnique (l : List Chars) (u : Chars) : List Chars :=
  if u ∈ l then l else l ++ [u]

/-- The oversize check of STEP 1: `cl and int(cl) > 5 * 1024 * 1024`,
with the surrounding `try` turning an unparsable header into `False`. -/
def clTooBig (clHeader : Option Chars) : Bool :=
  match clHeader with
  | none => false
  | some cl =>
    if cl = [] then false
    else match pyInt cl with
      | some v => v > 5242880
      | none => false

/-- The dead-200 guard of the entry point: `cl and is_dead_200(...)`,
with its `try` turning an unparsable header into `False`. -/
def deadGuard (clHeader : Option Chars) (tokenCount : Nat) : Bool :=
  match clHeader with
  | none => false
  | some cl =>
    if cl = [] then false
    else match pyInt cl with
      | some v => is_dead_200 tokenCount v
      | none => false

/-- `scraper(url, resp)`.  The float comparison
`link_count / word_count > 0.5` of the link-density heuristic is modelled
by the exact rational comparison `2 * link_count > word_count`. -/
def scraper (st : CrawlState) (url : Chars) (resp : Response) : ScrapeResult :=
  if ¬ is_valid url then ⟨st, [], false⟩
  else if resp.status ≠ 200 then ⟨st, [], false⟩
  else
    match resp.raw_response with
    | none => ⟨st, [], false⟩
    | some raw =>
      if ¬ hasSub "text/html".toList (raw.contentType.getD []) then ⟨st, [], false⟩
      else if clTooBig raw.contentLength then ⟨st, [], false⟩
      else
        match raw.soup with
        | none => ⟨st, [], false⟩
        | some soup =>
          let tokens := tokenize soup.text
          if is_low_information_page tokens.length then ⟨st, [], false⟩
          else if deadGuard raw.contentLength tokens.length then ⟨st, [], false⟩
          else
            let final_url := raw.urlAttr.getD url
            let ar := add_page st.analytics final_url tokens
            if ar.raised then ⟨{ st with analytics := ar.state }, [], true⟩
            else
              let st1 : CrawlState :=
                { analytics := ar.state
                  word_freq := updateFreq st.word_freq tokens
                  unique_pages := insertUnique st.unique_pages url
                  pages_by_subdomain :=
                    (if get_subdomain url ≠ [] then
                      bumpSub st.pages_by_subdomain (get_subdomain url)
                    else st.pages_by_subdomain)
                  url_inventory := st.url_inventory ++ [(url, tokens.length)]
                  longest_page :=
                    if tokens.length > st.longest_page.2 then (url, tokens.length)
                    else st.longest_page }
              let link_count := soup.hrefs.length
              if tokens.length > 0 ∧ link_count > 100 ∧ 2 * link_count > tokens.length then
                ⟨st1, [], false⟩
              else
                let base := raw.urlAttr.getD url
                match collectLinks base soup.hrefs with
                | none => ⟨st1, [], true⟩
                | some links => ⟨st1, links, false⟩

/-- The invariant of C10 on the aggregator's `subdomain_pages` table:
every key is a nonempty lower-case hostname ending in `.uci.edu`, and
every URL stored under a key is fragment-free with that key as its
`Analytics.hostname`. -/
def SubdomainInv (s : Analytics) : Prop :=
  ∀ p ∈ s.subdomain_pages,
    (p.1 ≠ [] ∧ lowerL p.1 = p.1 ∧ hasSuf ".uci.edu".toList p.1 = true) ∧
    ∀ u ∈ p.2, hasSub ['#'] u = false ∧ hostnameE u = .ok p.1

/-- The components assembled by the non-verbatim branches of `urljoin`
(the argument record of its final `urlunparse` call), as a function of
the parse results of base and url.  `urljoinE` below is shown to return
`urlunparse (mkJoin b r)` whenever the two parses succeed with equal
schemes in `uses_relative`. -/
def mkJoin (b r : ParseResult) : ParseResult :=
  let netloc :=
    if r.scheme ∈ usesNetloc then
      (if r.netloc ≠ [] then r.netloc else b.netloc)
    else r.netloc
  if r.scheme ∈ usesNetloc ∧ r.netloc ≠ [] then
    ⟨r.scheme, r.netloc, r.path, r.params, r.query, r.fragment⟩
  else if r.path = [] ∧ r.params = [] then
    ⟨r.scheme, netloc, b.path, b.params,
      (if r.query = [] then b.query else r.query), r.fragment⟩
  else
    let baseParts := splitAll '/' b.path
    let baseParts' :=
      if baseParts.getLast? ≠ some [] then baseParts.dropLast else baseParts
    let segments :=
      if r.path.take 1 = ['/'] then splitAll '/' r.path
      else filterMiddle (baseParts' ++ splitAll '/' r.path)
    let resolved := resolveSegs segments
    let resolved' :=
      if segments.getLast? = some ['.'] ∨ segments.getLast? = some ['.', '.']
      then resolved ++ [[]] else resolved
    let joined := joinSegs resolved'
    ⟨r.scheme, netloc, (if joined = [] then ['/'] else joined),
      r.params, r.query, r.fragment⟩

/-- The path-with-params string `urlunparse` rebuilds before assembling
the URL. -/
def ppOf (C : ParseResult) : Chars :=
  if C.params ≠ [] then C.path ++ ';' :: C.params else C.path

/-- The path component recovered when `urlparse` re-reads
`urlunparse C` (for a nonempty netloc): the original path, with the `/`
that `urlunsplit` inserts in front of a relative path. -/
def pathAdj (C : ParseResult) : Chars :=
  if ppOf C ≠ [] ∧ (ppOf C).take 1 ≠ ['/'] then '/' :: C.path else C.path

/-- The path-with-params as placed after `//netloc` by `urlunsplit`. -/
def unsplitPath (C : ParseResult) : Chars :=
  if ppOf C ≠ [] ∧ (ppOf C).take 1 ≠ ['/'] then '/' :: ppOf C else ppOf C

/-- Conditions on an assembled component record under which
`urlunparse` followed by `urlparse` round-trips (up to the `/` that
`urlunsplit` inserts in front of a relative path): an `http`/`https`
scheme, a nonempty netloc containing no delimiter and none of the
characters `urlsplit` removes, passing bracket validation, a `#`/`?`-free
path and params with `/`-free params and no `;` after the last `/` of
the path, and a `#`-free query.  The fragment is unconstrained. -/
structure rtOK (C : ParseResult) : Prop where
  scheme_http : C.scheme = "http".toList ∨ C.scheme = "https".toList
  netloc_ne : C.netloc ≠ []
  netloc_clean : ∀ c ∈ C.netloc, netlocEnd c = false ∧ isUnsafeUrlCh c = false
  netloc_br1 : ¬ ((hasSub ['['] C.netloc ∧ ¬ hasSub [']'] C.netloc) ∨
    (hasSub [']'] C.netloc ∧ ¬ hasSub ['['] C.netloc))
  netloc_br2 : ¬ (hasSub ['['] C.netloc ∧ hasSub [']'] C.netloc ∧
    !(checkBracketedHost
      ((splitFirst ']' ((splitFirst '[' C.netloc).2.getD [])).1)))
  path_clean : ∀ c ∈ C.path, c ≠ '#' ∧ c ≠ '?' ∧ isUnsafeUrlCh c = false
  path_semi : ';' ∉ afterLast '/' C.path
  params_clean : ∀ c ∈ C.params, c ≠ '#' ∧ c ≠ '?' ∧ isUnsafeUrlCh c = false
  params_slash : '/' ∉ C.params
  query_clean : ∀ c ∈ C.query, c ≠ '#' ∧ isUnsafeUrlCh c = false

end Crawler

namespace Crawler

/-! ## Theorems -/

/-! ### Generic helper lemmas -/

theorem toNat_ofNat_valid (n : Nat) (h : n < 55296) : (Char.ofNat n).toNat = n := by
  have hv : n.isValidChar := Or.inl h
  simp [Char.ofNat, hv, Char.ofNatAux, Char.toNat, UInt32.toNat, BitVec.toNat_ofNatLt]

theorem lowerCh_idem (c : Char) : lowerCh (lowerCh c) = lowerCh c := by
  by_cases h : 'A' ≤ c ∧ c ≤ 'Z'
  · have hv1 : 65 ≤ c.toNat := h.1
    have hv2 : c.toNat ≤ 90 := h.2
    have h3 : (Char.ofNat (c.toNat + 32)).toNat = c.toNat + 32 :=
      toNat_ofNat_valid _ (by omega)
    have hnot : ¬ ('A' ≤ Char.ofNat (c.toNat + 32) ∧ Char.ofNat (c.toNat + 32) ≤ 'Z') := by
      intro ⟨_, hb⟩
      have : (Char.ofNat (c.toNat + 32)).toNat ≤ 90 := hb
      omega
    simp [lowerCh, h, hnot]
  · simp [lowerCh, h]

theorem lowerL_idem (s : Chars) : lowerL (lowerL s) = lowerL s := by
  simp [lowerL, List.map_map]
  exact fun c _ => lowerCh_idem c

/-- A character that lower-cases to something other than a lower-case
letter must have been that character already. -/
theorem lowerCh_eq_self_of_not_upper (c : Char) (h : ¬ ('A' ≤ c ∧ c ≤ 'Z')) :
    lowerCh c = c := by
  simp [lowerCh, h]

theorem lowerCh_ne_hash (c : Char) (hc : c ≠ '#') : lowerCh c ≠ '#' := by
  by_cases h : 'A' ≤ c ∧ c ≤ 'Z'
  · have hv1 : 65 ≤ c.toNat := h.1
    have h3 : (Char.ofNat (c.toNat + 32)).toNat = c.toNat + 32 :=
      toNat_ofNat_valid _ (by
        have : c.toNat ≤ 90 := h.2
        omega)
    simp only [lowerCh, h, and_self, if_true]
    intro he
    have : (Char.ofNat (c.toNat + 32)).toNat = 35 := by rw [he]; rfl
    omega
  · simpa [lowerCh, h] using hc

/-! ### C2: idempotence of `add_page` -/

theorem add_page_admitted_shape (s : Analytics) (u : Chars) (ts : List Chars)
    (url' : Chars) (hu : ¬ u = []) (hdf : defragE u = .ok url')
    (hlen : ¬ (clean_tokens ts).length < s.min_words)
    (hmem : url' ∉ s.unique_urls) :
    (add_page s u ts).state.unique_urls = s.unique_urls ++ [url'] ∧
    (add_page s u ts).state.min_words = s.min_words := by
  unfold add_page
  rw [if_neg hu]
  simp only [hdf]
  rw [if_neg hlen, if_neg hmem]
  cases hh : hostnameE url' <;> simp only [] <;> split_ifs <;> exact ⟨rfl, rfl⟩

/-- C2.  `Analytics.add_page` is idempotent per URL: running the same
call twice, from any aggregator state and with any URL and token list,
leaves the aggregator in exactly the same state as running it once
(a URL already present in `unique_urls` is a complete no-op). -/
theorem add_page_idempotent (s : Analytics) (u : Chars) (ts : List Chars) :
    (add_page (add_page s u ts).state u ts).state = (add_page s u ts).state := by
  by_cases hu : u = []
  · simp [add_page, hu]
  · cases hdf : defragE u with
    | error e => simp [add_page, hu, hdf]
    | ok url' =>
      by_cases hlen : (clean_tokens ts).length < s.min_words
      · have h1 : (add_page s u ts).state = s := by
          simp [add_page, hu, hdf, hlen]
        rw [h1]
        exact h1
      · by_cases hmem : url' ∈ s.unique_urls
        · have h1 : (add_page s u ts).state = s := by
            simp [add_page, hu, hdf, hlen, hmem]
          rw [h1]
          exact h1
        · obtain ⟨hUn, hMin⟩ := add_page_admitted_shape s u ts url' hu hdf hlen hmem
          set S := (add_page s u ts).state with hS
          have hmem2 : url' ∈ S.unique_urls := by
            rw [hUn]; simp
          have hlen2 : ¬ (clean_tokens ts).length < S.min_words := by
            rw [hMin]; exact hlen
          simp [add_page, hu, hdf, hlen2, hmem2]

/-! ### C5: the longest-page record -/

theorem add_page_min_words (s : Analytics) (u : Chars) (ts : List Chars) :
    (add_page s u ts).state.min_words = s.min_words := by
  by_cases h1 : u = []
  · simp [add_page, h1]
  · cases hdf : defragE u with
    | error e => simp [add_page, h1, hdf]
    | ok u2 =>
      by_cases h2 : (clean_tokens ts).length < s.min_words
      · simp [add_page, h1, hdf, h2]
      · by_cases h3 : u2 ∈ s.unique_urls
        · simp [add_page, h1, hdf, h2, h3]
        · cases hhost : hostnameE u2 <;>
            simp only [add_page, h1, if_false, hdf, h2, h3, hhost] <;>
            split_ifs <;> rfl

/-- When `stepAdmit` refuses, `add_page` leaves the state untouched. -/
theorem add_page_of_stepAdmit_none (s : Analytics) (u : Chars) (ts : List Chars)
    (h : stepAdmit s u ts = none) : (add_page s u ts).state = s := by
  by_cases h1 : u = []
  · simp [add_page, h1]
  · cases hdf : defragE u with
    | error e => simp [add_page, h1, hdf]
    | ok u2 =>
      by_cases h2 : (clean_tokens ts).length < s.min_words
      · simp [add_page, h1, hdf, h2]
      · by_cases h3 : u2 ∈ s.unique_urls
        · simp [add_page, h1, hdf, h2, h3]
        · exfalso
          simp [stepAdmit, h1, hdf, h2, h3] at h

/-- When `stepAdmit` admits, `add_page` updates the longest-page record by
exactly one `foldLongest` step. -/
theorem add_page_of_stepAdmit_some (s : Analytics) (u : Chars) (ts : List Chars)
    (url' : Chars) (wc : Nat) (h : stepAdmit s u ts = some (url', wc)) :
    (add_page s u ts).state.longest_url
        = (if wc > s.longest_word_count then some url' else s.longest_url) ∧
    (add_page s u ts).state.longest_word_count
        = (if wc > s.longest_word_count then wc else s.longest_word_count) := by
  by_cases h1 : u = []
  · simp [stepAdmit, h1] at h
  · cases hdf : defragE u with
    | error e => simp [stepAdmit, h1, hdf] at h
    | ok u2 =>
      by_cases h2 : (clean_tokens ts).length < s.min_words
      · simp [stepAdmit, h1, hdf, h2] at h
      · by_cases h3 : u2 ∈ s.unique_urls
        · simp [stepAdmit, h1, hdf, h2, h3] at h
        · have hh : u2 = url' ∧ (clean_tokens ts).length = wc := by
            simpa [stepAdmit, h1, hdf, h2, h3] using h
          obtain ⟨he, hwc⟩ := hh
          subst he
          cases hhost : hostnameE u2 <;>
            simp only [add_page, h1, if_false, hdf, h2, h3, hhost, hwc] <;>
            split_ifs <;> simp_all

theorem addPages_foldLongest (calls : List (Chars × List Chars)) (s : Analytics) :
    ((addPages s calls).longest_url, (addPages s calls).longest_word_count)
      = foldLongest s.longest_url s.longest_word_count (admittedOf s calls) := by
  induction calls generalizing s with
  | nil => rfl
  | cons c rest ih =>
    obtain ⟨u, ts⟩ := c
    show ((addPages (add_page s u ts).state rest).longest_url,
          (addPages (add_page s u ts).state rest).longest_word_count) = _
    cases hst : stepAdmit s u ts with
    | none =>
      have hs : (add_page s u ts).state = s := add_page_of_stepAdmit_none s u ts hst
      rw [ih]
      simp only [admittedOf, hst, hs]
    | some p =>
      obtain ⟨url', wc⟩ := p
      obtain ⟨hlu, hlwc⟩ := add_page_of_stepAdmit_some s u ts url' wc hst
      rw [ih]
      simp only [admittedOf, hst, foldLongest, hlu, hlwc]
      by_cases h4 : wc > s.longest_word_count
      · rw [if_pos h4, if_pos h4, if_pos h4]
      · rw [if_neg h4, if_neg h4, if_neg h4]

theorem foldLongest_spec (ps : List (Chars × Nat)) (lu : Option Chars) (lwc : Nat) :
    (foldLongest lu lwc ps).2 = max lwc (maxList (ps.map Prod.snd)) ∧
    (foldLongest lu lwc ps).1 =
      (if maxList (ps.map Prod.snd) > lwc
       then (ps.find? (fun p => p.2 == maxList (ps.map Prod.snd))).map Prod.fst
       else lu) := by
  induction ps generalizing lu lwc with
  | nil => simp [foldLongest, maxList]
  | cons p rest ih =>
    obtain ⟨u, w⟩ := p
    have hm : maxList (((u, w) :: rest).map Prod.snd)
        = max w (maxList (rest.map Prod.snd)) := rfl
    by_cases hw : w > lwc
    · have ihw := ih (some u) w
      have hfold : foldLongest lu lwc ((u, w) :: rest) = foldLongest (some u) w rest := by
        simp [foldLongest, hw]
      rw [hfold, hm]
      constructor
      · rw [ihw.1]; omega
      · rw [ihw.2]
        by_cases hr : maxList (rest.map Prod.snd) > w
        · have hmax : max w (maxList (rest.map Prod.snd)) = maxList (rest.map Prod.snd) := by
            omega
          rw [hmax, if_pos hr, if_pos (by omega : maxList (rest.map Prod.snd) > lwc)]
          rw [List.find?_cons_of_neg]
          simp only [beq_iff_eq]
          omega
        · have hmax : max w (maxList (rest.map Prod.snd)) = w := by omega
          rw [hmax, if_neg hr, if_pos hw]
          rw [List.find?_cons_of_pos]
          · rfl
          · simp
    · have ihl := ih lu lwc
      have hfold : foldLongest lu lwc ((u, w) :: rest) = foldLongest lu lwc rest := by
        simp [foldLongest, hw]
      rw [hfold, hm]
      constructor
      · rw [ihl.1]; omega
      · rw [ihl.2]
        by_cases hr : maxList (rest.map Prod.snd) > lwc
        · have hmax : max w (maxList (rest.map Prod.snd)) = maxList (rest.map Prod.snd) := by
            omega
          rw [if_pos hr, hmax, if_pos (by omega : maxList (rest.map Prod.snd) > lwc)]
          rw [List.find?_cons_of_neg]
          simp only [beq_iff_eq]
          omega
        · have : ¬ max w (maxList (rest.map Prod.snd)) > lwc := by omega
          rw [if_neg hr, if_neg this]

theorem stepAdmit_some_ge (s : Analytics) (u : Chars) (ts : List Chars)
    (p : Chars × Nat) (h : stepAdmit s u ts = some p) : s.min_words ≤ p.2 := by
  by_cases h1 : u = []
  · simp [stepAdmit, h1] at h
  · cases hdf : defragE u with
    | error e => simp [stepAdmit, h1, hdf] at h
    | ok u2 =>
      by_cases h2 : (clean_tokens ts).length < s.min_words
      · simp [stepAdmit, h1, hdf, h2] at h
      · by_cases h3 : u2 ∈ s.unique_urls
        · simp [stepAdmit, h1, hdf, h2, h3] at h
        · have hp : (u2, (clean_tokens ts).length) = p := by
            simpa [stepAdmit, h1, hdf, h2, h3] using h
          rw [← hp]
          omega

theorem admittedOf_ge_min (calls : List (Chars × List Chars)) (s : Analytics) :
    ∀ p ∈ admittedOf s calls, s.min_words ≤ p.2 := by
  induction calls generalizing s with
  | nil => intro p hp; simp [admittedOf] at hp
  | cons c rest ih =>
    obtain ⟨u, ts⟩ := c
    intro p hp
    unfold admittedOf at hp
    cases hst : stepAdmit s u ts with
    | none =>
      rw [hst] at hp
      have := ih (add_page s u ts).state p hp
      rwa [add_page_min_words] at this
    | some q =>
      rw [hst] at hp
      rcases List.mem_cons.mp hp with hq | hp2
      · rw [hq]; exact stepAdmit_some_ge s u ts q hst
      · have := ih (add_page s u ts).state p hp2
        rwa [add_page_min_words] at this

/-- C5.  After any sequence of `add_page` calls from the initial
aggregator, the longest-page record equals the maximum cleaned-token
count among the admitted (recorded) pages, and names the
earliest-recorded page achieving that maximum (strict-improvement
replacement keeps the earliest on ties); on no admitted pages it is the
initial `(None, 0)`. -/
theorem longest_page_invariant (calls : List (Chars × List Chars)) :
    (addPages analyticsInit calls).longest_word_count
        = maxList ((admittedOf analyticsInit calls).map Prod.snd) ∧
    (addPages analyticsInit calls).longest_url
        = ((admittedOf analyticsInit calls).find?
            (fun p => p.2 == maxList ((admittedOf analyticsInit calls).map Prod.snd))).map
            Prod.fst := by
  have h := addPages_foldLongest calls analyticsInit
  have h2 := foldLongest_spec (admittedOf analyticsInit calls) none 0
  have hlu : analyticsInit.longest_url = none := rfl
  have hlwc : analyticsInit.longest_word_count = 0 := rfl
  rw [hlu, hlwc] at h
  have hfst : (addPages analyticsInit calls).longest_url
      = (foldLongest none 0 (admittedOf analyticsInit calls)).1 := congrArg Prod.fst h
  have hsnd : (addPages analyticsInit calls).longest_word_count
      = (foldLongest none 0 (admittedOf analyticsInit calls)).2 := congrArg Prod.snd h
  constructor
  · rw [hsnd, h2.1]
    omega
  · rw [hfst, h2.2]
    by_cases hpos : maxList ((admittedOf analyticsInit calls).map Prod.snd) > 0
    · rw [if_pos hpos]
    · rw [if_neg hpos]
      cases hps : admittedOf analyticsInit calls with
      | nil => simp
      | cons p rest =>
        exfalso
        have h50 : (50 : Nat) ≤ p.2 := by
          have := admittedOf_ge_min calls analyticsInit p (by rw [hps]; simp)
          simpa using this
        have : p.2 ≤ maxList ((admittedOf analyticsInit calls).map Prod.snd) := by
          rw [hps]
          show p.2 ≤ maxList (p.2 :: rest.map Prod.snd)
          show p.2 ≤ max p.2 (maxList (rest.map Prod.snd))
          omega
        omega

/-! ### C10: the `subdomain_pages` invariant -/

theorem splitFirst_fst_not_mem (sep : Char) (l : Chars) : sep ∉ (splitFirst sep l).1 := by
  induction l with
  | nil => simp [splitFirst]
  | cons c cs ih =>
    by_cases h : c = sep
    · simp [splitFirst, h]
    · simp only [splitFirst, if_neg h]
      intro hmem
      rcases List.mem_cons.mp hmem with he | hm
      · exact h he.symm
      · exact ih hm

theorem mem_splitFirst_fst (sep x : Char) (l : Chars)
    (h : x ∈ (splitFirst sep l).1) : x ∈ l := by
  induction l with
  | nil => simp [splitFirst] at h
  | cons c cs ih =>
    by_cases hc : c = sep
    · simp [splitFirst, hc] at h
    · simp only [splitFirst, if_neg hc] at h
      rcases List.mem_cons.mp h with he | hm
      · exact he ▸ List.mem_cons_self _ _
      · exact List.mem_cons_of_mem _ (ih hm)

theorem mem_splitFirst_snd (sep x : Char) (l r : Chars)
    (h : (splitFirst sep l).2 = some r) (hx : x ∈ r) : x ∈ l := by
  induction l with
  | nil => simp [splitFirst] at h
  | cons c cs ih =>
    by_cases hc : c = sep
    · simp only [splitFirst, if_pos hc, Option.some.injEq] at h
      exact List.mem_cons_of_mem _ (h ▸ hx)
    · simp only [splitFirst, if_neg hc] at h
      exact List.mem_cons_of_mem _ (ih h)

theorem hasSub_single_iff (c : Char) (l : Chars) : hasSub [c] l = true ↔ c ∈ l := by
  induction l with
  | nil => simp [hasSub]
  | cons x xs ih =>
    simp only [hasSub, hasPre, Bool.or_eq_true, List.mem_cons]
    constructor
    · rintro (h | h)
      · left
        have h2 : (c = x && hasPre [] xs) = true := h
        simp at h2
        exact h2.1
      · right; exact ih.mp h
    · rintro (h | h)
      · left; simp [hasPre, h]
      · right; exact ih.mpr h

theorem lowerCh_eq_hash (c : Char) (h : lowerCh c = '#') : c = '#' := by
  by_cases hu : 'A' ≤ c ∧ c ≤ 'Z'
  · exfalso
    exact lowerCh_ne_hash c (by
      intro he
      have h1 : 65 ≤ c.toNat := hu.1
      have : c.toNat = 35 := by rw [he]; rfl
      omega) h
  · rwa [lowerCh_eq_self_of_not_upper c hu] at h

theorem splitScheme_no_hash (u sc rest : Chars) (h : splitScheme u = some (sc, rest)) :
    '#' ∉ sc := by
  unfold splitScheme at h
  cases hsp : splitFirst ':' u with
  | mk before aft =>
    rw [hsp] at h
    cases aft with
    | none => simp at h
    | some after =>
      simp only [] at h
      split_ifs at h with hcond
      · simp only [Option.some.injEq, Prod.mk.injEq] at h
        intro hmem
        rw [← h.1] at hmem
        obtain ⟨c, hc, hlc⟩ := List.mem_map.mp hmem
        have hch : c = '#' := lowerCh_eq_hash c hlc
        have hall : before.all schemeCh := by
          simp only [Bool.and_eq_true] at hcond
          exact hcond.2
        have hsc := (List.all_eq_true.mp hall) c hc
        rw [hch] at hsc
        simp [schemeCh, isAsciiAlpha, isAsciiDigit] at hsc

theorem splitNetloc_no_hash (u nl rest2 : Chars) (h : splitNetloc u = .ok (nl, rest2)) :
    '#' ∉ nl := by
  unfold splitNetloc at h
  split_ifs at h with h1
  · simp only [] at h
    split_ifs at h with h2
    simp only [Except.ok.injEq, Prod.mk.injEq] at h
    intro hmem
    rw [← h.1] at hmem
    have hp := List.mem_takeWhile_imp hmem
    simp [netlocEnd] at hp
  · simp only [Except.ok.injEq, Prod.mk.injEq] at h
    intro hmem
    rw [← h.1] at hmem
    simp at hmem

theorem mem_getD_splitFirst_snd (sep x : Char) (l : Chars)
    (h : x ∈ ((splitFirst sep l).2).getD []) : x ∈ l := by
  cases hs : (splitFirst sep l).2 with
  | none => rw [hs] at h; simp at h
  | some q =>
    rw [hs] at h
    exact mem_splitFirst_snd sep x l q hs h

theorem mem_stripBy (p : Char → Bool) (x : Char) (s : Chars)
    (h : x ∈ stripBy p s) : x ∈ s := by
  unfold stripBy at h
  rw [List.mem_reverse] at h
  have h2 := (List.dropWhile_sublist p).subset h
  rw [List.mem_reverse] at h2
  exact (List.dropWhile_sublist p).subset h2

theorem mem_afterLast (sep x : Char) (s : Chars) (h : x ∈ afterLast sep s) : x ∈ s := by
  unfold afterLast at h
  rw [List.mem_reverse] at h
  have := mem_splitFirst_fst sep x s.reverse h
  rwa [List.mem_reverse] at this

theorem mem_splitParams_fst (x : Char) (p : Chars)
    (h : x ∈ (splitParams p).1) : x ∈ p := by
  unfold splitParams at h
  split_ifs at h with h1
  · simp only [] at h
    cases hsp : splitFirst ';' (afterLast '/' p) with
    | mk a1 o =>
      rw [hsp] at h
      cases o with
      | none => simpa using h
      | some a2 =>
        simp only [List.mem_append] at h
        rcases h with h | h
        · exact List.take_subset _ _ h
        · refine mem_afterLast '/' x p (mem_splitFirst_fst ';' x _ ?_)
          rw [hsp]
          exact h
  · cases hsp : splitFirst ';' p with
    | mk a1 o =>
      rw [hsp] at h
      cases o with
      | none => simpa using h
      | some a2 =>
        refine mem_splitFirst_fst ';' x p ?_
        rw [hsp]
        exact h

theorem mem_splitParams_snd (x : Char) (p : Chars)
    (h : x ∈ (splitParams p).2) : x ∈ p := by
  unfold splitParams at h
  split_ifs at h with h1
  · simp only [] at h
    cases hsp : splitFirst ';' (afterLast '/' p) with
    | mk a1 o =>
      rw [hsp] at h
      cases o with
      | none => simp at h
      | some a2 =>
        exact mem_afterLast '/' x p
          (mem_splitFirst_snd ';' x _ a2 (by rw [hsp]) h)
  · cases hsp : splitFirst ';' p with
    | mk a1 o =>
      rw [hsp] at h
      cases o with
      | none => simp at h
      | some a2 =>
        exact mem_splitFirst_snd ';' x p a2 (by rw [hsp]) h

theorem urlsplitE_no_hash (u0 d : Chars) (r : SplitResult) (hd : '#' ∉ d)
    (h : urlsplitE u0 d = .ok r) :
    '#' ∉ r.scheme ∧ '#' ∉ r.netloc ∧ '#' ∉ r.path ∧ '#' ∉ r.query := by
  unfold urlsplitE at h
  simp only [] at h
  have hdefS : '#' ∉ (stripBy isC0OrSpace d).filter (fun c => !(isUnsafeUrlCh c)) := by
    intro hm
    exact hd (mem_stripBy _ _ _ (List.mem_of_mem_filter hm))
  cases hs : splitScheme ((u0.dropWhile isC0OrSpace).filter (fun c => !(isUnsafeUrlCh c))) with
  | none =>
    rw [hs] at h
    simp only [] at h
    cases hn : splitNetloc ((u0.dropWhile isC0OrSpace).filter (fun c => !(isUnsafeUrlCh c))) with
    | error e => rw [hn] at h; simp at h
    | ok pr =>
      obtain ⟨nl, rest2⟩ := pr
      rw [hn] at h
      simp only [] at h
      split_ifs at h
      simp only [Except.ok.injEq] at h
      subst h
      refine ⟨hdefS, splitNetloc_no_hash _ _ _ hn, ?_, ?_⟩
      · intro hm
        exact splitFirst_fst_not_mem '#' rest2
          (mem_splitFirst_fst '?' '#' _ hm)
      · intro hm
        exact splitFirst_fst_not_mem '#' rest2
          (mem_getD_splitFirst_snd '?' '#' _ hm)
  | some sr =>
    obtain ⟨s1, r1⟩ := sr
    rw [hs] at h
    simp only [] at h
    cases hn : splitNetloc r1 with
    | error e => rw [hn] at h; simp at h
    | ok pr =>
      obtain ⟨nl, rest2⟩ := pr
      rw [hn] at h
      simp only [] at h
      split_ifs at h
      simp only [Except.ok.injEq] at h
      subst h
      refine ⟨splitScheme_no_hash _ _ _ hs, splitNetloc_no_hash _ _ _ hn, ?_, ?_⟩
      · intro hm
        exact splitFirst_fst_not_mem '#' rest2
          (mem_splitFirst_fst '?' '#' _ hm)
      · intro hm
        exact splitFirst_fst_not_mem '#' rest2
          (mem_getD_splitFirst_snd '?' '#' _ hm)

theorem urlparseE_no_hash (u0 d : Chars) (r : ParseResult) (hd : '#' ∉ d)
    (h : urlparseE u0 d = .ok r) :
    '#' ∉ r.scheme ∧ '#' ∉ r.netloc ∧ '#' ∉ r.path ∧ '#' ∉ r.params ∧ '#' ∉ r.query := by
  unfold urlparseE at h
  cases hsr : urlsplitE u0 d with
  | error e => rw [hsr] at h; simp at h
  | ok sr =>
    rw [hsr] at h
    obtain ⟨h1, h2, h3, h4⟩ := urlsplitE_no_hash u0 d sr hd hsr
    simp only [] at h
    split_ifs at h with hp
    · simp only [Except.ok.injEq] at h
      subst h
      exact ⟨h1, h2, fun hm => h3 (mem_splitParams_fst '#' _ hm),
        fun hm => h3 (mem_splitParams_snd '#' _ hm), h4⟩
    · simp only [Except.ok.injEq] at h
      subst h
      exact ⟨h1, h2, h3, by simp, h4⟩

theorem urlunsplit_no_hash (s n p q f : Chars) (hs : '#' ∉ s) (hn : '#' ∉ n)
    (hp : '#' ∉ p) (hq : '#' ∉ q) (hf : f = []) :
    '#' ∉ urlunsplit s n p q f := by
  subst hf
  unfold urlunsplit
  simp only []
  split_ifs <;> simp_all [List.mem_append, List.mem_cons]

theorem urlunparse_no_hash (r : ParseResult) (hs : '#' ∉ r.scheme)
    (hn : '#' ∉ r.netloc) (hp : '#' ∉ r.path) (hpar : '#' ∉ r.params)
    (hq : '#' ∉ r.query) (hf : r.fragment = []) :
    '#' ∉ urlunparse r := by
  unfold urlunparse
  apply urlunsplit_no_hash _ _ _ _ _ hs hn _ hq hf
  split_ifs
  · intro hm
    rcases List.mem_append.mp hm with h | h
    · exact hp h
    · rcases List.mem_cons.mp h with h | h
      · simp at h
      · exact hpar h
  · exact hp

theorem defragE_no_hash (url u2 : Chars) (h : defragE url = .ok u2) :
    hasSub ['#'] u2 = false := by
  unfold defragE urldefragE at h
  split_ifs at h with h1
  · cases hpr : urlparseE url [] with
    | error e => rw [hpr] at h; simp at h
    | ok r =>
      rw [hpr] at h
      simp only [Except.ok.injEq] at h
      subst h
      obtain ⟨n1, n2, n3, n4, n5⟩ := urlparseE_no_hash url [] r (by simp) hpr
      rw [Bool.eq_false_iff]
      intro hc
      exact urlunparse_no_hash { r with fragment := [] } n1 n2 n3 n4 n5 rfl
        ((hasSub_single_iff '#' _).mp hc)
  · simp only [Except.ok.injEq] at h
    subst h
    simpa using h1

/-- The hostname computed by `Analytics.hostname` is lower-case. -/
theorem hostnameE_lower (u2 host : Chars) (h : hostnameE u2 = .ok host) :
    lowerL host = host := by
  unfold hostnameE at h
  cases hpr : urlparseE u2 [] with
  | error e => rw [hpr] at h; simp at h
  | ok r =>
    rw [hpr] at h
    simp only [Except.ok.injEq] at h
    rw [← h]
    exact lowerL_idem _

theorem addSub_inv (P : Chars → Prop) (Q : Chars → Chars → Prop)
    (sp : List (Chars × List Chars)) (host url : Chars)
    (hsp : ∀ p ∈ sp, P p.1 ∧ ∀ u ∈ p.2, Q p.1 u) (hP : P host) (hQ : Q host url) :
    ∀ p ∈ addSub sp host url, P p.1 ∧ ∀ u ∈ p.2, Q p.1 u := by
  induction sp with
  | nil =>
    intro p hp
    simp only [addSub, List.mem_singleton] at hp
    subst hp
    refine ⟨hP, fun u hu => ?_⟩
    rcases List.mem_singleton.mp hu with rfl
    exact hQ
  | cons q rest ih =>
    intro p hp
    obtain ⟨k, us⟩ := q
    simp only [addSub] at hp
    by_cases hk : k = host
    · subst hk
      rw [if_pos rfl] at hp
      rcases List.mem_cons.mp hp with he | hm
      · subst he
        refine ⟨(hsp (k, us) (List.mem_cons_self _ _)).1, ?_⟩
        intro u hu
        by_cases hmem : url ∈ us
        · rw [if_pos hmem] at hu
          exact (hsp (k, us) (List.mem_cons_self _ _)).2 u hu
        · rw [if_neg hmem] at hu
          rcases List.mem_append.mp hu with h | h
          · exact (hsp (k, us) (List.mem_cons_self _ _)).2 u h
          · rcases List.mem_singleton.mp h with rfl
            exact hQ
      · exact hsp p (List.mem_cons_of_mem _ hm)
    · rw [if_neg hk] at hp
      rcases List.mem_cons.mp hp with he | hm
      · subst he
        exact hsp (k, us) (List.mem_cons_self _ _)
      · exact ih (fun p2 hp2 => hsp p2 (List.mem_cons_of_mem _ hp2)) p hm

theorem add_page_subdomain_shape (s : Analytics) (u : Chars) (ts : List Chars) :
    (add_page s u ts).state.subdomain_pages = s.subdomain_pages ∨
    ∃ u2 host, defragE u = .ok u2 ∧ hostnameE u2 = .ok host ∧
      host ≠ [] ∧ hasSuf ".uci.edu".toList host = true ∧ hasSub ['#'] u2 = false ∧
      (add_page s u ts).state.subdomain_pages = addSub s.subdomain_pages host u2 := by
  by_cases h1 : u = []
  · left; simp [add_page, h1]
  · cases hdf : defragE u with
    | error e => left; simp [add_page, h1, hdf]
    | ok u2 =>
      by_cases h2 : (clean_tokens ts).length < s.min_words
      · left; simp [add_page, h1, hdf, h2]
      · by_cases h3 : u2 ∈ s.unique_urls
        · left; simp [add_page, h1, hdf, h2, h3]
        · cases hhost : hostnameE u2 with
          | error e =>
            left
            simp only [add_page, h1, if_false, hdf, h2, h3, hhost]
            split_ifs <;> rfl
          | ok host =>
            by_cases hg : host ≠ [] ∧ hasSuf ".uci.edu".toList host = true
            · right
              refine ⟨u2, host, rfl, hhost, hg.1, hg.2, defragE_no_hash u u2 hdf, ?_⟩
              simp only [add_page, h1, if_false, hdf, h2, h3, hhost]
              split_ifs with hl <;> rfl
            · left
              simp only [add_page, h1, if_false, hdf, h2, h3, hhost]
              split_ifs with hl <;> rfl

/-- C10.  Every `Analytics.add_page` call preserves the invariant that
each key of `subdomain_pages` is a nonempty lower-case hostname ending
in `.uci.edu` (any `uci.edu` host — the guard is only that suffix test)
and that each URL stored under a key is a defragmented (fragment-free)
URL whose `Analytics.hostname` is exactly that key. -/
theorem subdomain_pages_invariant (s : Analytics) (u : Chars) (ts : List Chars)
    (hInv : SubdomainInv s) : SubdomainInv (add_page s u ts).state := by
  rcases add_page_subdomain_shape s u ts with hsh |
    ⟨u2, host, hdf, hhost, hne, hsuf, hnh, hsh⟩
  · intro p hp
    rw [hsh] at hp
    exact hInv p hp
  · intro p hp
    rw [hsh] at hp
    exact addSub_inv
      (fun h => h ≠ [] ∧ lowerL h = h ∧ hasSuf ".uci.edu".toList h = true)
      (fun h v => hasSub ['#'] v = false ∧ hostnameE v = .ok h)
      s.subdomain_pages host u2 hInv
      ⟨hne, hostnameE_lower u2 host hhost, hsuf⟩ ⟨hnh, hhost⟩ p hp

/-- Witness for C10: the invariant holds vacuously at start and is kept
by a concrete recording call on a `math.uci.edu` page. -/
theorem subdomain_pages_invariant_witness :
    SubdomainInv (add_page analyticsInit "http://x.math.uci.edu/a".toList
      (List.replicate 50 "word".toList)).state :=
  subdomain_pages_invariant analyticsInit _ _
    (fun p hp => absurd hp (by simp [analyticsInit]))

/-! ### C3: `is_valid` is a total predicate, parse errors reject -/

/-- C3.  `is_valid` is a total boolean predicate over all URL strings
(in this pure embedding it is a function, so determinism and freedom
from side effects are intrinsic), and any parse exception inside the
`try` body — surfaced by `isValidE` as an `Except.error` — yields the
reject result `False` rather than a propagated failure. -/
theorem is_valid_total (u : Chars) :
    (is_valid u = true ∨ is_valid u = false) ∧
    (∀ e, isValidE u = Except.error e → is_valid u = false) := by
  constructor
  · cases h : is_valid u
    · right; rfl
    · left; rfl
  · intro e he
    unfold is_valid
    rw [he]

/-- Witness for C3: a URL whose netloc has an unmatched bracket makes
`urlparse` raise, and `is_valid` returns `False` for it. -/
theorem is_valid_total_witness :
    is_valid "http://[x.ics.uci.edu/p".toList = false :=
  (is_valid_total _).2 () rfl

/-! ### C4: calendar / event / date-archive URLs are rejected -/

/-- C4.  Any URL whose decoded lower-cased path matches the calendar
keyword pattern or the year-month date pattern of `is_valid`, or whose
decoded lower-cased query contains an `ical`, `outlook` or `gcal`
token, is rejected by `is_valid`. -/
theorem calendar_reject (u : Chars) (p : ParseResult)
    (hp : urlparseE u [] = .ok p)
    (hcal : calendarPathHit (lowerL (unquoteL p.path)) = true ∨
            datePathHit (lowerL (unquoteL p.path)) = true ∨
            hasSub "ical".toList (lowerL (unquoteL p.query)) = true ∨
            hasSub "outlook".toList (lowerL (unquoteL p.query)) = true ∨
            hasSub "gcal".toList (lowerL (unquoteL p.query)) = true) :
    is_valid u = false := by
  unfold is_valid isValidE
  rw [hp]
  simp only [isValidChecks]
  by_cases h1 : ¬ (p.scheme = "http".toList ∨ p.scheme = "https".toList)
  · rw [if_pos h1]
  · rw [if_neg h1]
    by_cases h2 : ¬ validDomain p.netloc = true
    · rw [if_pos h2]
    · rw [if_neg h2]
      by_cases h3 : calendarPathHit (lowerL (unquoteL p.path)) = true
      · rw [if_pos h3]
      · rw [if_neg h3]
        by_cases h4 : (hasSub "ical".toList (lowerL (unquoteL p.query)) ||
            hasSub "outlook".toList (lowerL (unquoteL p.query)) ||
            hasSub "gcal".toList (lowerL (unquoteL p.query))) = true
        · rw [if_pos h4]
        · rw [if_neg h4]
          by_cases h5 : (["?ical=", "&ical=", "outlook-ical"].any
              (fun k => hasSub k.toList (lowerL (unquoteL u)))) = true
          · rw [if_pos h5]
          · rw [if_neg h5]
            by_cases h6 : datePathHit (lowerL (unquoteL p.path)) = true
            · rw [if_pos h6]
            · exfalso
              simp only [Bool.or_eq_true, not_or] at h4
              rcases hcal with h | h | h | h | h
              · exact h3 h
              · exact h6 h
              · exact h4.1.1 h
              · exact h4.1.2 h
              · exact h4.2 h

/-- Witness for C4 (Scenario C): `https://cs.example.edu/events/2024-03`
is rejected. -/
theorem calendar_reject_witness :
    is_valid "https://cs.example.edu/events/2024-03".toList = false :=
  calendar_reject _ _ rfl (Or.inl (by decide))

/-! ### C9: an explicit port defeats the netloc-based allow-list -/

theorem hasPre_head (p s : Chars) (hp : hasPre p s = true) (hne : p ≠ []) :
    s.head? = p.head? := by
  cases p with
  | nil => exact absurd rfl hne
  | cons a as =>
    cases s with
    | nil => simp [hasPre] at hp
    | cons b bs =>
      simp only [hasPre, Bool.and_eq_true, decide_eq_true_eq] at hp
      simp [hp.1]

theorem hasSuf_getLast (p s : Chars) (hs : hasSuf p s = true) (hne : p ≠ []) :
    s.getLast? = p.getLast? := by
  unfold hasSuf at hs
  have h1 := hasPre_head p.reverse s.reverse hs (by simpa using hne)
  rwa [List.head?_reverse, List.head?_reverse] at h1

theorem validDomain_false_of_port (h ds : Chars) (hne : ds ≠ [])
    (hdig : ds.all isAsciiDigit = true) :
    validDomain (h ++ ':' :: ds) = false := by
  have hlast : ∃ c, (h ++ ':' :: ds).getLast? = some c ∧ isAsciiDigit c = true := by
    obtain ⟨d0, dt, rfl⟩ := List.exists_cons_of_ne_nil hne
    have hnn : d0 :: dt ≠ [] := by simp
    refine ⟨(d0 :: dt).getLast hnn, ?_, ?_⟩
    · rw [List.getLast?_append_cons, List.getLast?_cons_cons]
      exact List.getLast?_eq_getLast_of_ne_nil hnn
    · exact List.all_eq_true.mp hdig _ (List.getLast_mem _)
  obtain ⟨c, hc, hcd⟩ := hlast
  have hsufF : ∀ d : Chars, d.getLast? = some 'u' →
      ¬ hasSuf d (h ++ ':' :: ds) = true := by
    intro d hd hs
    have hgl := hasSuf_getLast d _ hs (by
      intro hnil
      rw [hnil] at hd
      simp at hd)
    rw [hc, hd] at hgl
    have : c = 'u' := by simpa using hgl
    rw [this] at hcd
    simp [isAsciiDigit] at hcd
  have hcolon : ':' ∈ h ++ ':' :: ds := by simp
  have heqF : ∀ d : Chars, ¬ (':' ∈ d) → ¬ (h ++ ':' :: ds = d) := by
    intro d hdc he
    rw [he] at hcolon
    exact hdc hcolon
  rw [Bool.eq_false_iff]
  intro hv
  simp only [validDomain, allowed_domains, List.map_cons, List.map_nil,
    List.any_cons, List.any_nil, Bool.or_eq_true, decide_eq_true_eq] at hv
  rcases hv with (hx | hx) | (hx | hx) | (hx | hx) | (hx | hx) | hx
  · exact hsufF _ (by decide) hx
  · exact heqF _ (by decide) hx
  · exact hsufF _ (by decide) hx
  · exact heqF _ (by decide) hx
  · exact hsufF _ (by decide) hx
  · exact heqF _ (by decide) hx
  · exact hsufF _ (by decide) hx
  · exact heqF _ (by decide) hx
  · simp at hx

/-- C9.  A URL whose netloc carries an explicit decimal port is rejected
by `is_valid`, even with an `http`/`https` scheme and a hostname equal
to (or under) an allowed root domain, because the allow-list comparison
is made against the netloc string, which still contains `:port`. -/
theorem port_reject (u : Chars) (p : ParseResult) (h ds : Chars)
    (hp : urlparseE u [] = .ok p)
    (hnet : p.netloc = h ++ ':' :: ds) (hne : ds ≠ [])
    (hdig : ds.all isAsciiDigit = true)
    (hscheme : p.scheme = "http".toList ∨ p.scheme = "https".toList)
    (hhost : ∃ d ∈ allowed_domains,
      hasSuf d (hostnameOfNetloc p.netloc) = true ∨
      hostnameOfNetloc p.netloc = d.drop 1) :
    is_valid u = false := by
  unfold is_valid isValidE
  rw [hp]
  simp only [isValidChecks]
  rw [if_neg (not_not_intro hscheme)]
  rw [if_pos (by
    rw [hnet, validDomain_false_of_port h ds hne hdig]
    simp)]

/-- Witness for C9: `https://ics.uci.edu:8080/page` has an allowed
hostname but is rejected. -/
theorem port_reject_witness :
    is_valid "https://ics.uci.edu:8080/page".toList = false :=
  port_reject _ _ "ics.uci.edu".toList "8080".toList rfl (by decide)
    (by decide) (by decide) (Or.inr rfl)
    ⟨".ics.uci.edu".toList, by decide, Or.inr (by decide)⟩

/-! ### C1: the response gate of `scraper` -/

/-- C1.  The validation gate of `scraper`: a non-200 status, an absent
`raw_response`, a `Content-Type` without `text/html`, or a parseable
`Content-Length` above 5 MiB each make `scraper` return the empty link
list with the whole crawl state (aggregator statistics included)
unchanged; and an unparsable `Content-Length` is ignored — the run is
identical to one with no `Content-Length` header at all (the size check
fails open, the status and type checks are unaffected). -/
theorem scraper_gate (st : CrawlState) (url : Chars) (resp : Response) :
    (resp.status ≠ 200 → scraper st url resp = ⟨st, [], false⟩) ∧
    (resp.raw_response = none → scraper st url resp = ⟨st, [], false⟩) ∧
    (∀ raw, resp.raw_response = some raw →
      hasSub "text/html".toList (raw.contentType.getD []) = false →
      scraper st url resp = ⟨st, [], false⟩) ∧
    (∀ raw, resp.raw_response = some raw → clTooBig raw.contentLength = true →
      scraper st url resp = ⟨st, [], false⟩) ∧
    (∀ raw cl, resp.raw_response = some raw → raw.contentLength = some cl →
      pyInt cl = none →
      scraper st url resp =
        scraper st url ⟨resp.status, some { raw with contentLength := none }⟩) := by
  refine ⟨?_, ?_, ?_, ?_, ?_⟩
  · intro hs
    unfold scraper
    by_cases h1 : ¬ is_valid url = true
    · rw [if_pos h1]
    · rw [if_neg h1, if_pos hs]
  · intro hr
    unfold scraper
    by_cases h1 : ¬ is_valid url = true
    · rw [if_pos h1]
    · rw [if_neg h1]
      by_cases h2 : resp.status ≠ 200
      · rw [if_pos h2]
      · rw [if_neg h2, hr]
  · intro raw hr hct
    unfold scraper
    by_cases h1 : ¬ is_valid url = true
    · rw [if_pos h1]
    · rw [if_neg h1]
      by_cases h2 : resp.status ≠ 200
      · rw [if_pos h2]
      · rw [if_neg h2, hr]
        simp only []
        rw [if_pos (by simp only [Bool.not_eq_true]; exact hct)]
  · intro raw hr hbig
    unfold scraper
    by_cases h1 : ¬ is_valid url = true
    · rw [if_pos h1]
    · rw [if_neg h1]
      by_cases h2 : resp.status ≠ 200
      · rw [if_pos h2]
      · rw [if_neg h2, hr]
        simp only []
        by_cases hct : ¬ hasSub "text/html".toList (raw.contentType.getD []) = true
        · rw [if_pos hct]
        · rw [if_neg hct, if_pos hbig]
  · intro raw cl hr hcl hpy
    have e1 : clTooBig (some cl) = false := by
      simp only [clTooBig]
      split_ifs with h
      · rfl
      · rw [hpy]
    have e2 : ∀ t, deadGuard (some cl) t = false := by
      intro t
      simp only [deadGuard]
      split_ifs with h
      · rfl
      · rw [hpy]
    obtain ⟨ct, clh, sp, ua⟩ := raw
    simp only [] at hcl
    subst hcl
    unfold scraper
    rw [hr]
    simp [e1, e2, hpy, clTooBig, deadGuard]


/-- Witness for C1 (Scenario A): a 404 response produces no links and
leaves every statistic unchanged. -/
theorem scraper_gate_witness :
    scraper crawlInit "http://www.ics.uci.edu/a".toList ⟨404, none⟩
      = ⟨crawlInit, [], false⟩ :=
  (scraper_gate crawlInit _ _).1 (by decide)

/-! ### C7: the dead-200 guard -/

/-- Counterexample to C7 as stated: with a declared `Content-Length` of
`0` (which is below 50), `is_dead_200` returns `False` for a page with
one token, so "true iff zero tokens or declared length under 50 bytes"
fails at `t = 1`, `c = 0`. -/
theorem is_dead_200_claim_counterexample :
    ¬ (is_dead_200 1 0 = true ↔ ((1 : Nat) = 0 ∨ (0 : Int) < 50)) := by
  decide

/-- C7 (amended).  `is_dead_200 t c` holds exactly when `t = 0` or the
declared content length satisfies `0 < c < 50` (the code treats a
non-positive declared length as "no declared length"); and whenever the
guard holds for the response's parsed `Content-Length` the entry point
returns no links and leaves the whole crawl state unchanged. -/
theorem dead_200_guard (t : Nat) (c : Int) :
    (is_dead_200 t c = true ↔ (t = 0 ∨ (0 < c ∧ c < 50))) ∧
    (∀ (st : CrawlState) (url : Chars) (resp : Response) (raw : RawResponse)
        (soup : Soup) (cl : Chars) (v : Int),
      resp.raw_response = some raw → raw.soup = some soup →
      raw.contentLength = some cl → cl ≠ [] → pyInt cl = some v →
      is_dead_200 (tokenize soup.text).length v = true →
      scraper st url resp = ⟨st, [], false⟩) := by
  constructor
  · unfold is_dead_200
    split_ifs with h1 h2
    · simp [h1]
    · simp only [true_iff]
      right
      exact h2
    · simp only [false_iff, not_or]
      exact ⟨h1, h2⟩
  · intro st url resp raw soup cl v hr hs hcl hne hv hd
    have hdg : deadGuard raw.contentLength (tokenize soup.text).length = true := by
      rw [hcl]
      simp only [deadGuard]
      rw [if_neg (by simpa using hne), hv]
      exact hd
    unfold scraper
    by_cases h1 : ¬ is_valid url = true
    · rw [if_pos h1]
    · rw [if_neg h1]
      by_cases h2 : resp.status ≠ 200
      · rw [if_pos h2]
      · rw [if_neg h2, hr]
        simp only []
        by_cases h3 : ¬ hasSub "text/html".toList (raw.contentType.getD []) = true
        · rw [if_pos h3]
        · rw [if_neg h3]
          by_cases h4 : clTooBig raw.contentLength = true
          · rw [if_pos h4]
          · rw [if_neg h4, hs]
            simp only []
            by_cases h5 : is_low_information_page (tokenize soup.text).length = true
            · rw [if_pos h5]
            · rw [if_neg h5, if_pos hdg]

/-- Witness for C7: a `Content-Length: 30` response is dropped by the
dead-200 guard with no state change. -/
theorem dead_200_guard_witness :
    scraper crawlInit "http://www.ics.uci.edu/a".toList
      ⟨200, some ⟨some "text/html".toList, some "30".toList, some ⟨[], []⟩, none⟩⟩
      = ⟨crawlInit, [], false⟩ :=
  (dead_200_guard 0 0).2 crawlInit _ _
    ⟨some "text/html".toList, some "30".toList, some ⟨[], []⟩, none⟩
    ⟨[], []⟩ "30".toList 30 rfl rfl rfl (by decide) (by decide) (by decide)

/-! ### List utilities for the C6 development -/

theorem takeWhile_append_neg (p : Char → Bool) (c : Char) (a b : Chars)
    (hc : p c = false) : (a ++ c :: b).takeWhile p = a.takeWhile p := by
  induction a with
  | nil => simp [List.takeWhile, hc]
  | cons x xs ih =>
    by_cases hx : p x
    · simp [List.takeWhile_cons, hx, ih]
    · simp [List.takeWhile_cons, hx]

theorem dropWhile_append_neg (p : Char → Bool) (c : Char) (a b : Chars)
    (hc : p c = false) : (a ++ c :: b).dropWhile p = a.dropWhile p ++ c :: b := by
  induction a with
  | nil => simp [List.dropWhile, hc]
  | cons x xs ih =>
    by_cases hx : p x
    · simp [List.dropWhile_cons, hx, ih]
    · simp [List.dropWhile_cons, hx]

theorem splitFirst_append_not_mem (sep : Char) (a b : Chars) (h : sep ∉ a) :
    splitFirst sep (a ++ b) = (a ++ (splitFirst sep b).1, (splitFirst sep b).2) := by
  induction a with
  | nil => simp
  | cons x xs ih =>
    have hx : x ≠ sep := fun he => h (he ▸ List.mem_cons_self x xs)
    have hxs : sep ∉ xs := fun hm => h (List.mem_cons_of_mem _ hm)
    simp only [List.cons_append, splitFirst, List.append_eq, if_neg hx, ih hxs]

theorem splitFirst_not_mem (sep : Char) (a : Chars) (h : sep ∉ a) :
    splitFirst sep a = (a, none) := by
  have h2 := splitFirst_append_not_mem sep a [] h
  simpa [splitFirst] using h2

theorem splitFirst_append_some (sep : Char) (a b x y : Chars)
    (h : splitFirst sep a = (x, some y)) :
    splitFirst sep (a ++ b) = (x, some (y ++ b)) := by
  induction a generalizing x with
  | nil => simp [splitFirst] at h
  | cons c cs ih =>
    by_cases hc : c = sep
    · simp only [splitFirst, if_pos hc, Prod.mk.injEq, Option.some.injEq] at h
      obtain ⟨hx, hy⟩ := h
      subst hx
      subst hy
      simp [splitFirst, hc]
    · simp only [splitFirst, if_neg hc] at h
      cases hsc : splitFirst sep cs with
      | mk x1 o1 =>
        rw [hsc] at h
        simp only [Prod.mk.injEq] at h
        obtain ⟨hx, hy⟩ := h
        subst hx
        cases o1 with
        | none => simp at hy
        | some y1 =>
          have hy1 : y1 = y := by simpa using hy
          subst hy1
          have hrec := ih (x := x1) (by rw [hsc])
          simp only [List.cons_append, splitFirst, List.append_eq, if_neg hc, hrec]

theorem splitFirst_decomp (sep : Char) (a y : Chars)
    (h : (splitFirst sep a).2 = some y) :
    a = (splitFirst sep a).1 ++ sep :: y := by
  induction a with
  | nil => simp [splitFirst] at h
  | cons c cs ih =>
    by_cases hc : c = sep
    · simp only [splitFirst, if_pos hc, Option.some.injEq] at h
      subst h
      simp [splitFirst, hc]
    · simp only [splitFirst, if_neg hc] at h ⊢
      rw [List.cons_append]
      exact congrArg (List.cons c) (ih h)

theorem splitFirst_none_not_mem (sep : Char) (a : Chars)
    (h : (splitFirst sep a).2 = none) : sep ∉ a := by
  induction a with
  | nil => simp
  | cons c cs ih =>
    by_cases hc : c = sep
    · simp [splitFirst, hc] at h
    · simp only [splitFirst, if_neg hc] at h
      intro hm
      rcases List.mem_cons.mp hm with he | hm2
      · exact hc he.symm
      · exact ih h hm2

theorem hasPre_frag_ext (p core f : Chars) (hp : '#' ∉ p) :
    hasPre p (core ++ '#' :: f) = hasPre p core := by
  induction core generalizing p with
  | nil =>
    cases p with
    | nil => rfl
    | cons q qs =>
      have hq : q ≠ '#' := fun he => hp (he ▸ List.mem_cons_self q qs)
      simp [hasPre, hq]
  | cons c cs ih =>
    cases p with
    | nil => rfl
    | cons q qs =>
      have hqs : '#' ∉ qs := fun hm => hp (List.mem_cons_of_mem _ hm)
      simp only [List.cons_append, hasPre, List.append_eq, ih qs hqs]

theorem takeWhile_append_sat (p : Char → Bool) (a b : Chars)
    (ha : ∀ c ∈ a, p c = true)
    (hb : b = [] ∨ ∃ c b2, b = c :: b2 ∧ p c = false) :
    (a ++ b).takeWhile p = a ∧ (a ++ b).dropWhile p = b := by
  induction a with
  | nil =>
    rcases hb with rfl | ⟨c, b2, rfl, hc⟩
    · simp
    · simp [List.takeWhile_cons, List.dropWhile_cons, hc]
  | cons x xs ih =>
    have hx := ha x (List.mem_cons_self x xs)
    have ihs := ih (fun c hc => ha c (List.mem_cons_of_mem _ hc))
    simp [List.takeWhile_cons, List.dropWhile_cons, hx, ihs.1, ihs.2]

theorem afterLast_not_mem (sep : Char) (s : Chars) (h : sep ∉ s) :
    afterLast sep s = s := by
  unfold afterLast
  rw [splitFirst_not_mem sep s.reverse (by simpa using h)]
  simp

theorem afterLast_sep_not_mem (sep : Char) (s : Chars) : sep ∉ afterLast sep s := by
  intro hm
  unfold afterLast at hm
  rw [List.mem_reverse] at hm
  exact splitFirst_fst_not_mem sep s.reverse hm

theorem afterLast_append_sep (sep : Char) (a b : Chars) :
    afterLast sep (a ++ sep :: b) = afterLast sep b := by
  unfold afterLast
  have hrev : (a ++ sep :: b).reverse = b.reverse ++ sep :: a.reverse := by
    simp [List.reverse_append]
  rw [hrev]
  cases ho : (splitFirst sep b.reverse).2 with
  | none =>
    have hnm := splitFirst_none_not_mem sep b.reverse ho
    rw [splitFirst_append_not_mem sep b.reverse (sep :: a.reverse) hnm,
        splitFirst_not_mem sep b.reverse hnm]
    simp [splitFirst]
  | some y =>
    have he : splitFirst sep b.reverse = ((splitFirst sep b.reverse).1, some y) := by
      rw [← ho]
    rw [splitFirst_append_some sep b.reverse (sep :: a.reverse) _ y he]

theorem afterLast_decomp (sep : Char) (s : Chars) (h : sep ∈ s) :
    ∃ q, s = q ++ sep :: afterLast sep s := by
  have hm : sep ∈ s.reverse := by simpa using h
  cases ho : (splitFirst sep s.reverse).2 with
  | none => exact absurd hm (splitFirst_none_not_mem sep s.reverse ho)
  | some y =>
    have hd := splitFirst_decomp sep s.reverse y ho
    refine ⟨y.reverse, ?_⟩
    have h2 : s = y.reverse ++ sep :: (splitFirst sep s.reverse).1.reverse := by
      conv_lhs => rw [← List.reverse_reverse s, hd]
      simp [List.reverse_append]
    exact h2

theorem splitParams_semi (p : Chars) : ';' ∉ afterLast '/' (splitParams p).1 := by
  unfold splitParams
  by_cases hm : '/' ∈ p
  · rw [if_pos ((hasSub_single_iff '/' p).mpr hm)]
    simp only []
    cases hsp : splitFirst ';' (afterLast '/' p) with
    | mk a1 o =>
      cases o with
      | none =>
        simp only []
        exact splitFirst_none_not_mem ';' (afterLast '/' p) (by rw [hsp])
      | some a2 =>
        simp only []
        have ha1 : '/' ∉ a1 := by
          intro hc
          exact afterLast_sep_not_mem '/' p
            (mem_splitFirst_fst ';' '/' _ (by rw [hsp]; exact hc))
        have hsemi1 : ';' ∉ a1 := by
          intro hc
          exact splitFirst_fst_not_mem ';' (afterLast '/' p) (by rw [hsp]; exact hc)
        obtain ⟨q, hq⟩ := afterLast_decomp '/' p hm
        set A := afterLast '/' p with hA
        have hlen : p.length - A.length = q.length + 1 := by
          rw [hq]
          simp only [List.length_append, List.length_cons]
          omega
        have htake : p.take (q.length + 1) = q ++ ['/'] := by
          rw [hq]
          rw [show q ++ '/' :: A = (q ++ ['/']) ++ A by simp]
          rw [show q.length + 1 = (q ++ ['/']).length by simp]
          exact List.take_left _ _
        rw [hlen, htake, show (q ++ ['/']) ++ a1 = q ++ '/' :: a1 by simp,
            afterLast_append_sep '/' q a1, afterLast_not_mem '/' a1 ha1]
        exact hsemi1
  · rw [if_neg (by rw [hasSub_single_iff]; exact hm)]
    cases hsp : splitFirst ';' p with
    | mk a1 o =>
      cases o with
      | none =>
        simp only []
        rw [afterLast_not_mem '/' p hm]
        exact splitFirst_none_not_mem ';' p (by rw [hsp])
      | some a2 =>
        simp only []
        have ha1 : '/' ∉ a1 := fun hc =>
          hm (mem_splitFirst_fst ';' '/' p (by rw [hsp]; exact hc))
        rw [afterLast_not_mem '/' a1 ha1]
        exact fun hc => splitFirst_fst_not_mem ';' p (by rw [hsp]; exact hc)

theorem splitParams_slash (p : Chars) : '/' ∉ (splitParams p).2 := by
  unfold splitParams
  by_cases hm : '/' ∈ p
  · rw [if_pos ((hasSub_single_iff '/' p).mpr hm)]
    simp only []
    cases hsp : splitFirst ';' (afterLast '/' p) with
    | mk a1 o =>
      cases o with
      | none => simp
      | some a2 =>
        simp only []
        intro hc
        exact afterLast_sep_not_mem '/' p
          (mem_splitFirst_snd ';' '/' _ a2 (by rw [hsp]) hc)
  · rw [if_neg (by rw [hasSub_single_iff]; exact hm)]
    cases hsp : splitFirst ';' p with
    | mk a1 o =>
      cases o with
      | none => simp
      | some a2 =>
        simp only []
        exact fun hc => hm (mem_splitFirst_snd ';' '/' p a2 (by rw [hsp]) hc)

theorem splitParams_exact (path params : Chars)
    (hsemi : ';' ∉ afterLast '/' path) (hps : '/' ∉ params) (hpne : params ≠ []) :
    splitParams (path ++ ';' :: params) = (path, params) := by
  unfold splitParams
  by_cases hm : '/' ∈ path
  · have hmp : '/' ∈ path ++ ';' :: params := List.mem_append.mpr (Or.inl hm)
    rw [if_pos ((hasSub_single_iff '/' _).mpr hmp)]
    simp only []
    obtain ⟨q, hq⟩ := afterLast_decomp '/' path hm
    set A := afterLast '/' path with hA
    have hAslash : '/' ∉ A := by rw [hA]; exact afterLast_sep_not_mem '/' path
    have hAtail : '/' ∉ A ++ ';' :: params := by
      intro hc
      rcases List.mem_append.mp hc with hc | hc
      · exact hAslash hc
      · rcases List.mem_cons.mp hc with hc | hc
        · simp at hc
        · exact hps hc
    have hal : afterLast '/' (path ++ ';' :: params) = A ++ ';' :: params := by
      rw [hq]
      rw [show (q ++ '/' :: A) ++ ';' :: params = q ++ '/' :: (A ++ ';' :: params) by simp]
      rw [afterLast_append_sep '/' q (A ++ ';' :: params),
          afterLast_not_mem '/' (A ++ ';' :: params) hAtail]
    have hsf : splitFirst ';' (A ++ ';' :: params) = (A, some params) := by
      rw [splitFirst_append_not_mem ';' A (';' :: params) hsemi]
      simp [splitFirst]
    rw [hal, hsf]
    simp only []
    have hlen : (path ++ ';' :: params).length - (A ++ ';' :: params).length
        = q.length + 1 := by
      rw [hq]
      simp only [List.length_append, List.length_cons]
      omega
    have htake : (path ++ ';' :: params).take (q.length + 1) = q ++ ['/'] := by
      rw [hq]
      rw [show (q ++ '/' :: A) ++ ';' :: params = (q ++ ['/']) ++ (A ++ ';' :: params) by simp]
      rw [show q.length + 1 = (q ++ ['/']).length by simp]
      exact List.take_left _ _
    rw [hlen, htake]
    rw [Prod.mk.injEq]
    refine ⟨?_, rfl⟩
    rw [show (q ++ ['/']) ++ A = q ++ '/' :: A by simp]
    exact hq.symm
  · have hsp2 : ';' ∉ path := by
      rw [afterLast_not_mem '/' path hm] at hsemi
      exact hsemi
    have hmp : '/' ∉ path ++ ';' :: params := by
      intro hc
      rcases List.mem_append.mp hc with hc | hc
      · exact hm hc
      · rcases List.mem_cons.mp hc with hc | hc
        · simp at hc
        · exact hps hc
    rw [if_neg (by rw [hasSub_single_iff]; exact hmp)]
    have hsf2 : splitFirst ';' (path ++ ';' :: params) = (path, some params) := by
      rw [splitFirst_append_not_mem ';' path (';' :: params) hsp2]
      simp [splitFirst]
    simp [hsf2]

theorem splitParams_id (p : Chars) (h : ';' ∉ afterLast '/' p) :
    splitParams p = (p, []) := by
  unfold splitParams
  by_cases hm : '/' ∈ p
  · rw [if_pos ((hasSub_single_iff '/' p).mpr hm)]
    simp only []
    simp [splitFirst_not_mem ';' (afterLast '/' p) h]
  · rw [if_neg (by rw [hasSub_single_iff]; exact hm)]
    rw [afterLast_not_mem '/' p hm] at h
    simp [splitFirst_not_mem ';' p h]

theorem mem_takeWhile_mem (p : Char → Bool) (l : Chars) (x : Char)
    (h : x ∈ l.takeWhile p) : x ∈ l := by
  induction l with
  | nil => simpa using h
  | cons c cs ih =>
    by_cases hc : p c
    · rw [List.takeWhile_cons, if_pos hc] at h
      rcases List.mem_cons.mp h with he | hm
      · exact he ▸ List.mem_cons_self c cs
      · exact List.mem_cons_of_mem _ (ih hm)
    · rw [List.takeWhile_cons, if_neg hc] at h
      simp at h

theorem hasPre_pair (a b : Char) (s : Chars) (h : hasPre [a, b] s = true) :
    ∃ t, s = a :: b :: t := by
  cases s with
  | nil => simp [hasPre] at h
  | cons c1 s1 =>
    cases s1 with
    | nil => simp [hasPre] at h
    | cons c2 t =>
      simp only [hasPre, Bool.and_eq_true, decide_eq_true_eq] at h
      exact ⟨t, by rw [h.1, h.2.1]⟩

theorem splitScheme_mem_snd (u s1 r1 : Chars) (h : splitScheme u = some (s1, r1)) :
    ∀ x ∈ r1, x ∈ u := by
  unfold splitScheme at h
  cases hsp : splitFirst ':' u with
  | mk before aft =>
    rw [hsp] at h
    cases aft with
    | none => simp at h
    | some after =>
      simp only [] at h
      split_ifs at h with hcond
      simp only [Option.some.injEq, Prod.mk.injEq] at h
      obtain ⟨hs, hr⟩ := h
      subst hr
      intro x hx
      exact mem_splitFirst_snd ':' x u after (by rw [hsp]) hx

theorem splitNetloc_mem (u nl rest2 : Chars) (h : splitNetloc u = .ok (nl, rest2)) :
    (∀ x ∈ nl, x ∈ u) ∧ (∀ x ∈ rest2, x ∈ u) := by
  unfold splitNetloc at h
  split_ifs at h with h1
  · simp only [] at h
    split_ifs at h with h2
    simp only [Except.ok.injEq, Prod.mk.injEq] at h
    obtain ⟨hnl, hr⟩ := h
    subst hnl
    subst hr
    constructor
    · intro x hx
      exact List.drop_subset 2 u (mem_takeWhile_mem _ _ x hx)
    · intro x hx
      exact List.drop_subset 2 u ((List.dropWhile_sublist _).subset hx)
  · simp only [Except.ok.injEq, Prod.mk.injEq] at h
    obtain ⟨hnl, hr⟩ := h
    subst hnl
    subst hr
    exact ⟨fun x hx => by simp at hx, fun x hx => hx⟩

theorem splitScheme_frag_ext (core f : Chars) (hc : '#' ∉ core) :
    splitScheme (core ++ '#' :: f) =
      match splitScheme core with
      | some (s, r) => some (s, r ++ '#' :: f)
      | none => none := by
  cases hss : splitScheme core with
  | some sr =>
    obtain ⟨s1, r1⟩ := sr
    simp only []
    unfold splitScheme at hss ⊢
    cases hsp : splitFirst ':' core with
    | mk before aft =>
      rw [hsp] at hss
      cases aft with
      | none => simp at hss
      | some after =>
        simp only [] at hss
        split_ifs at hss with hcond
        simp only [Option.some.injEq, Prod.mk.injEq] at hss
        obtain ⟨hs1, hr1⟩ := hss
        rw [splitFirst_append_some ':' core ('#' :: f) before after (by rw [hsp])]
        simp only []
        rw [if_pos hcond, hs1, hr1]
  | none =>
    simp only []
    unfold splitScheme at hss ⊢
    cases hsp : splitFirst ':' core with
    | mk before aft =>
      rw [hsp] at hss
      cases aft with
      | some after =>
        simp only [] at hss
        split_ifs at hss with hcond
        rw [splitFirst_append_some ':' core ('#' :: f) before after (by rw [hsp])]
        simp only []
        rw [if_neg hcond]
      | none =>
        have hnm : ':' ∉ core := splitFirst_none_not_mem ':' core (by rw [hsp])
        rw [splitFirst_append_not_mem ':' core ('#' :: f) hnm]
        have hstep : splitFirst ':' ('#' :: f)
            = ('#' :: (splitFirst ':' f).1, (splitFirst ':' f).2) := by
          simp [splitFirst]
        rw [hstep]
        cases ho : (splitFirst ':' f).2 with
        | none => rfl
        | some y =>
          simp only []
          have hall : (core ++ '#' :: (splitFirst ':' f).1).all schemeCh = false := by
            rw [Bool.eq_false_iff]
            intro hall
            have h2 := (List.all_eq_true.mp hall) '#'
              (List.mem_append.mpr (Or.inr (List.mem_cons_self _ _)))
            simp [schemeCh, isAsciiAlpha, isAsciiDigit] at h2
          simp [hall]

theorem splitNetloc_frag_ext (r f : Chars) (h : '#' ∉ r) :
    splitNetloc (r ++ '#' :: f) =
      match splitNetloc r with
      | .ok (nl, rest) => .ok (nl, rest ++ '#' :: f)
      | .error e => .error e := by
  unfold splitNetloc
  have hpre : hasPre ['/', '/'] (r ++ '#' :: f) = hasPre ['/', '/'] r :=
    hasPre_frag_ext ['/', '/'] r f (by decide)
  by_cases h2 : hasPre ['/', '/'] r = true
  · rw [hpre, if_pos h2, if_pos h2]
    simp only []
    obtain ⟨t, rfl⟩ := hasPre_pair '/' '/' r h2
    have hd1 : ('/' :: '/' :: t ++ '#' :: f).drop 2 = t ++ '#' :: f := by simp
    have hd2 : ('/' :: '/' :: t).drop 2 = t := by simp
    rw [hd1, hd2]
    rw [takeWhile_append_neg _ '#' t f (by decide),
        dropWhile_append_neg _ '#' t f (by decide)]
    split_ifs with hbr
    · rfl
    · rfl
  · rw [hpre, if_neg h2, if_neg h2]

theorem urlsplitE_frag_ext (u f d : Chars) (hu : '#' ∉ u) :
    urlsplitE (u ++ '#' :: f) d =
      match urlsplitE u d with
      | .ok r => .ok { r with fragment := f.filter (fun c => !(isUnsafeUrlCh c)) }
      | .error e => .error e := by
  unfold urlsplitE
  simp only []
  rw [dropWhile_append_neg isC0OrSpace '#' u f (by decide), List.filter_append]
  have hff : ('#' :: f).filter (fun c => !(isUnsafeUrlCh c))
      = '#' :: f.filter (fun c => !(isUnsafeUrlCh c)) := by
    rw [List.filter_cons]
    simp [isUnsafeUrlCh]
  rw [hff]
  set core2 := (u.dropWhile isC0OrSpace).filter (fun c => !(isUnsafeUrlCh c)) with hc2def
  set f2 := f.filter (fun c => !(isUnsafeUrlCh c)) with hf2def
  have hc2 : '#' ∉ core2 := by
    rw [hc2def]
    intro hm
    exact hu ((List.dropWhile_sublist isC0OrSpace).subset (List.mem_of_mem_filter hm))
  rw [splitScheme_frag_ext core2 f2 hc2]
  cases hss : splitScheme core2 with
  | none =>
    simp only []
    rw [splitNetloc_frag_ext core2 f2 hc2]
    cases hsn : splitNetloc core2 with
    | error e => rfl
    | ok pr =>
      obtain ⟨nl, rest2⟩ := pr
      simp only []
      have hrest2 : '#' ∉ rest2 := fun hm =>
        hc2 ((splitNetloc_mem core2 nl rest2 hsn).2 '#' hm)
      split_ifs with hbr
      · rfl
      · rw [splitFirst_append_not_mem '#' rest2 ('#' :: f2) hrest2,
            splitFirst_not_mem '#' rest2 hrest2]
        simp [splitFirst]
  | some sr =>
    obtain ⟨s1, r1⟩ := sr
    simp only []
    have hr1 : '#' ∉ r1 := fun hm => hc2 (splitScheme_mem_snd core2 s1 r1 hss '#' hm)
    rw [splitNetloc_frag_ext r1 f2 hr1]
    cases hsn : splitNetloc r1 with
    | error e => rfl
    | ok pr =>
      obtain ⟨nl, rest2⟩ := pr
      simp only []
      have hrest2 : '#' ∉ rest2 := fun hm =>
        hr1 ((splitNetloc_mem r1 nl rest2 hsn).2 '#' hm)
      split_ifs with hbr
      · rfl
      · rw [splitFirst_append_not_mem '#' rest2 ('#' :: f2) hrest2,
            splitFirst_not_mem '#' rest2 hrest2]
        simp [splitFirst]

theorem urlparseE_frag_ext (u f d : Chars) (hu : '#' ∉ u) :
    urlparseE (u ++ '#' :: f) d =
      match urlparseE u d with
      | .ok r => .ok { r with fragment := f.filter (fun c => !(isUnsafeUrlCh c)) }
      | .error e => .error e := by
  unfold urlparseE
  rw [urlsplitE_frag_ext u f d hu]
  cases hsp : urlsplitE u d with
  | error e => rfl
  | ok r =>
    simp only []
    split_ifs with hp
    · rfl
    · rfl

theorem urlsplitE_fragment_empty (u d : Chars) (r : SplitResult) (hu : '#' ∉ u)
    (h : urlsplitE u d = .ok r) : r.fragment = [] := by
  unfold urlsplitE at h
  simp only [] at h
  have hurl : '#' ∉ (u.dropWhile isC0OrSpace).filter (fun c => !(isUnsafeUrlCh c)) := by
    intro hm
    exact hu ((List.dropWhile_sublist isC0OrSpace).subset (List.mem_of_mem_filter hm))
  cases hss : splitScheme ((u.dropWhile isC0OrSpace).filter (fun c => !(isUnsafeUrlCh c))) with
  | none =>
    rw [hss] at h
    simp only [] at h
    cases hsn : splitNetloc ((u.dropWhile isC0OrSpace).filter (fun c => !(isUnsafeUrlCh c))) with
    | error e => rw [hsn] at h; simp at h
    | ok pr =>
      obtain ⟨nl, rest2⟩ := pr
      rw [hsn] at h
      simp only [] at h
      split_ifs at h
      simp only [Except.ok.injEq] at h
      subst h
      have hrest2 : '#' ∉ rest2 := fun hm =>
        hurl ((splitNetloc_mem _ nl rest2 hsn).2 '#' hm)
      simp [splitFirst_not_mem '#' rest2 hrest2]
  | some sr1 =>
    obtain ⟨s1, r1⟩ := sr1
    rw [hss] at h
    simp only [] at h
    have hr1 : '#' ∉ r1 := fun hm => hurl (splitScheme_mem_snd _ s1 r1 hss '#' hm)
    cases hsn : splitNetloc r1 with
    | error e => rw [hsn] at h; simp at h
    | ok pr =>
      obtain ⟨nl, rest2⟩ := pr
      rw [hsn] at h
      simp only [] at h
      split_ifs at h
      simp only [Except.ok.injEq] at h
      subst h
      have hrest2 : '#' ∉ rest2 := fun hm =>
        hr1 ((splitNetloc_mem r1 nl rest2 hsn).2 '#' hm)
      simp [splitFirst_not_mem '#' rest2 hrest2]

theorem urlparseE_fragment_empty (u d : Chars) (r : ParseResult) (hu : '#' ∉ u)
    (h : urlparseE u d = .ok r) : r.fragment = [] := by
  unfold urlparseE at h
  cases hsr : urlsplitE u d with
  | error e => rw [hsr] at h; simp at h
  | ok sr =>
    rw [hsr] at h
    have hfr : sr.fragment = [] := urlsplitE_fragment_empty u d sr hu hsr
    simp only [] at h
    split_ifs at h with hp
    · simp only [Except.ok.injEq] at h
      subst h
      exact hfr
    · simp only [Except.ok.injEq] at h
      subst h
      exact hfr

theorem splitNetloc_delim (u nl rest2 : Chars) (h : splitNetloc u = .ok (nl, rest2)) :
    ∀ c ∈ nl, netlocEnd c = false := by
  unfold splitNetloc at h
  split_ifs at h with h1
  · simp only [] at h
    split_ifs at h with h2
    simp only [Except.ok.injEq, Prod.mk.injEq] at h
    obtain ⟨hnl, _⟩ := h
    subst hnl
    intro c hc
    have h3 := List.mem_takeWhile_imp hc
    simpa using h3
  · simp only [Except.ok.injEq, Prod.mk.injEq] at h
    obtain ⟨hnl, _⟩ := h
    subst hnl
    intro c hc
    simp at hc

theorem splitNetloc_brackets (u nl rest2 : Chars) (h : splitNetloc u = .ok (nl, rest2)) :
    ¬ ((hasSub ['['] nl ∧ ¬ hasSub [']'] nl) ∨
       (hasSub [']'] nl ∧ ¬ hasSub ['['] nl)) := by
  unfold splitNetloc at h
  split_ifs at h with h1
  · simp only [] at h
    split_ifs at h with h2
    simp only [Except.ok.injEq, Prod.mk.injEq] at h
    obtain ⟨hnl, _⟩ := h
    subst hnl
    exact h2
  · simp only [Except.ok.injEq, Prod.mk.injEq] at h
    obtain ⟨hnl, _⟩ := h
    subst hnl
    simp [hasSub]

theorem urlsplitE_clean (u d : Chars) (r : SplitResult) (h : urlsplitE u d = .ok r) :
    (∀ c ∈ r.netloc, netlocEnd c = false ∧ isUnsafeUrlCh c = false) ∧
    (∀ c ∈ r.path, c ≠ '#' ∧ c ≠ '?' ∧ isUnsafeUrlCh c = false) ∧
    (∀ c ∈ r.query, c ≠ '#' ∧ isUnsafeUrlCh c = false) := by
  unfold urlsplitE at h
  simp only [] at h
  have hclean : ∀ x ∈ (u.dropWhile isC0OrSpace).filter (fun c => !(isUnsafeUrlCh c)),
      isUnsafeUrlCh x = false := by
    intro x hx
    have h2 := (List.mem_filter.mp hx).2
    simpa using h2
  cases hss : splitScheme ((u.dropWhile isC0OrSpace).filter (fun c => !(isUnsafeUrlCh c))) with
  | none =>
    rw [hss] at h
    simp only [] at h
    cases hsn : splitNetloc ((u.dropWhile isC0OrSpace).filter (fun c => !(isUnsafeUrlCh c))) with
    | error e => rw [hsn] at h; simp at h
    | ok pr =>
      obtain ⟨nl, rest2⟩ := pr
      rw [hsn] at h
      simp only [] at h
      split_ifs at h
      simp only [Except.ok.injEq] at h
      subst h
      have hmem := splitNetloc_mem _ nl rest2 hsn
      refine ⟨?_, ?_, ?_⟩
      · intro c hc
        exact ⟨splitNetloc_delim _ nl rest2 hsn c hc, hclean c (hmem.1 c hc)⟩
      · intro c hc
        have hc1 : c ∈ (splitFirst '#' rest2).1 :=
          mem_splitFirst_fst '?' c _ hc
        refine ⟨fun he => splitFirst_fst_not_mem '#' rest2 (he ▸ hc1), ?_, ?_⟩
        · exact fun he => splitFirst_fst_not_mem '?' _ (he ▸ hc)
        · exact hclean c (hmem.2 c (mem_splitFirst_fst '#' c rest2 hc1))
      · intro c hc
        have hc1 : c ∈ (splitFirst '#' rest2).1 :=
          mem_getD_splitFirst_snd '?' c _ hc
        refine ⟨fun he => splitFirst_fst_not_mem '#' rest2 (he ▸ hc1), ?_⟩
        exact hclean c (hmem.2 c (mem_splitFirst_fst '#' c rest2 hc1))
  | some sr1 =>
    obtain ⟨s1, r1⟩ := sr1
    rw [hss] at h
    simp only [] at h
    have hr1sub : ∀ x ∈ r1, isUnsafeUrlCh x = false := fun x hx =>
      hclean x (splitScheme_mem_snd _ s1 r1 hss x hx)
    cases hsn : splitNetloc r1 with
    | error e => rw [hsn] at h; simp at h
    | ok pr =>
      obtain ⟨nl, rest2⟩ := pr
      rw [hsn] at h
      simp only [] at h
      split_ifs at h
      simp only [Except.ok.injEq] at h
      subst h
      have hmem := splitNetloc_mem r1 nl rest2 hsn
      refine ⟨?_, ?_, ?_⟩
      · intro c hc
        exact ⟨splitNetloc_delim r1 nl rest2 hsn c hc, hr1sub c (hmem.1 c hc)⟩
      · intro c hc
        have hc1 : c ∈ (splitFirst '#' rest2).1 :=
          mem_splitFirst_fst '?' c _ hc
        refine ⟨fun he => splitFirst_fst_not_mem '#' rest2 (he ▸ hc1), ?_, ?_⟩
        · exact fun he => splitFirst_fst_not_mem '?' _ (he ▸ hc)
        · exact hr1sub c (hmem.2 c (mem_splitFirst_fst '#' c rest2 hc1))
      · intro c hc
        have hc1 : c ∈ (splitFirst '#' rest2).1 :=
          mem_getD_splitFirst_snd '?' c _ hc
        refine ⟨fun he => splitFirst_fst_not_mem '#' rest2 (he ▸ hc1), ?_⟩
        exact hr1sub c (hmem.2 c (mem_splitFirst_fst '#' c rest2 hc1))

theorem urlsplitE_brackets (u d : Chars) (r : SplitResult) (h : urlsplitE u d = .ok r) :
    ¬ ((hasSub ['['] r.netloc ∧ ¬ hasSub [']'] r.netloc) ∨
       (hasSub [']'] r.netloc ∧ ¬ hasSub ['['] r.netloc)) ∧
    ¬ (hasSub ['['] r.netloc ∧ hasSub [']'] r.netloc ∧
       !(checkBracketedHost
         ((splitFirst ']' ((splitFirst '[' r.netloc).2.getD [])).1))) := by
  unfold urlsplitE at h
  simp only [] at h
  cases hss : splitScheme ((u.dropWhile isC0OrSpace).filter (fun c => !(isUnsafeUrlCh c))) with
  | none =>
    rw [hss] at h
    simp only [] at h
    cases hsn : splitNetloc ((u.dropWhile isC0OrSpace).filter (fun c => !(isUnsafeUrlCh c))) with
    | error e => rw [hsn] at h; simp at h
    | ok pr =>
      obtain ⟨nl, rest2⟩ := pr
      rw [hsn] at h
      simp only [] at h
      split_ifs at h with hbr
      simp only [Except.ok.injEq] at h
      subst h
      exact ⟨splitNetloc_brackets _ nl rest2 hsn, hbr⟩
  | some sr1 =>
    obtain ⟨s1, r1⟩ := sr1
    rw [hss] at h
    simp only [] at h
    cases hsn : splitNetloc r1 with
    | error e => rw [hsn] at h; simp at h
    | ok pr =>
      obtain ⟨nl, rest2⟩ := pr
      rw [hsn] at h
      simp only [] at h
      split_ifs at h with hbr
      simp only [Except.ok.injEq] at h
      subst h
      exact ⟨splitNetloc_brackets r1 nl rest2 hsn, hbr⟩

theorem urlparseE_clean (u d : Chars) (r : ParseResult) (h : urlparseE u d = .ok r) :
    (∀ c ∈ r.netloc, netlocEnd c = false ∧ isUnsafeUrlCh c = false) ∧
    ¬ ((hasSub ['['] r.netloc ∧ ¬ hasSub [']'] r.netloc) ∨
       (hasSub [']'] r.netloc ∧ ¬ hasSub ['['] r.netloc)) ∧
    ¬ (hasSub ['['] r.netloc ∧ hasSub [']'] r.netloc ∧
       !(checkBracketedHost
         ((splitFirst ']' ((splitFirst '[' r.netloc).2.getD [])).1))) ∧
    (∀ c ∈ r.path, c ≠ '#' ∧ c ≠ '?' ∧ isUnsafeUrlCh c = false) ∧
    (∀ c ∈ r.params, c ≠ '#' ∧ c ≠ '?' ∧ isUnsafeUrlCh c = false) ∧
    (∀ c ∈ r.query, c ≠ '#' ∧ isUnsafeUrlCh c = false) ∧
    '/' ∉ r.params := by
  unfold urlparseE at h
  cases hsr : urlsplitE u d with
  | error e => rw [hsr] at h; simp at h
  | ok sr =>
    rw [hsr] at h
    obtain ⟨hn, hp, hq⟩ := urlsplitE_clean u d sr hsr
    obtain ⟨hb1, hb2⟩ := urlsplitE_brackets u d sr hsr
    simp only [] at h
    split_ifs at h with hps
    · simp only [Except.ok.injEq] at h
      subst h
      refine ⟨hn, hb1, hb2, ?_, ?_, hq, ?_⟩
      · intro c hc
        exact hp c (mem_splitParams_fst c sr.path hc)
      · intro c hc
        exact hp c (mem_splitParams_snd c sr.path hc)
      · exact splitParams_slash sr.path
    · simp only [Except.ok.injEq] at h
      subst h
      refine ⟨hn, hb1, hb2, hp, ?_, hq, ?_⟩
      · intro c hc
        simp at hc
      · intro hc
        simp at hc

theorem urlparseE_semi (u d : Chars) (r : ParseResult) (h : urlparseE u d = .ok r)
    (hsch : r.scheme ∈ usesParams) : ';' ∉ afterLast '/' r.path := by
  unfold urlparseE at h
  cases hsr : urlsplitE u d with
  | error e => rw [hsr] at h; simp at h
  | ok sr =>
    rw [hsr] at h
    simp only [] at h
    split_ifs at h with hps
    · simp only [Except.ok.injEq] at h
      subst h
      exact splitParams_semi sr.path
    · simp only [Except.ok.injEq] at h
      subst h
      intro hc
      have hm : ';' ∈ sr.path := mem_afterLast '/' ';' sr.path hc
      exact hps ⟨hsch, (hasSub_single_iff ';' sr.path).mpr hm⟩

theorem splitAll_cons_sep (sep : Char) (cs : Chars) :
    splitAll sep (sep :: cs) = [] :: splitAll sep cs := by
  simp [splitAll]

theorem splitAll_cons_ne (sep c : Char) (cs : Chars) (hc : c ≠ sep) :
    splitAll sep (c :: cs) =
      match splitAll sep cs with
      | [] => [[c]]
      | h :: t => (c :: h) :: t := by
  simp [splitAll, hc]

theorem splitAll_ne_nil (sep : Char) (s : Chars) : splitAll sep s ≠ [] := by
  cases s with
  | nil => simp [splitAll]
  | cons c cs =>
    by_cases hc : c = sep
    · subst hc
      rw [splitAll_cons_sep]
      simp
    · rw [splitAll_cons_ne sep c cs hc]
      cases splitAll sep cs with
      | nil => simp
      | cons h t => simp

theorem splitAll_sep_free (sep : Char) (s : Chars) :
    ∀ l ∈ splitAll sep s, sep ∉ l := by
  induction s with
  | nil =>
    intro l hl
    simp [splitAll] at hl
    subst hl
    simp
  | cons c cs ih =>
    intro l hl
    by_cases hc : c = sep
    · subst hc
      rw [splitAll_cons_sep] at hl
      rcases List.mem_cons.mp hl with he | hm
      · subst he; simp
      · exact ih l hm
    · rw [splitAll_cons_ne sep c cs hc] at hl
      cases hr : splitAll sep cs with
      | nil => exact absurd hr (splitAll_ne_nil sep cs)
      | cons hh tt =>
        rw [hr] at hl
        simp only [] at hl
        rcases List.mem_cons.mp hl with he | hm
        · subst he
          intro hmem
          rcases List.mem_cons.mp hmem with he2 | hm2
          · exact hc he2.symm
          · exact ih hh (by rw [hr]; exact List.mem_cons_self _ _) hm2
        · exact ih l (by rw [hr]; exact List.mem_cons_of_mem _ hm)

theorem splitAll_mem_chars (sep : Char) (s : Chars) :
    ∀ l ∈ splitAll sep s, ∀ x ∈ l, x ∈ s := by
  induction s with
  | nil =>
    intro l hl x hx
    simp [splitAll] at hl
    subst hl
    simp at hx
  | cons c cs ih =>
    intro l hl x hx
    by_cases hc : c = sep
    · subst hc
      rw [splitAll_cons_sep] at hl
      rcases List.mem_cons.mp hl with he | hm
      · subst he; simp at hx
      · exact List.mem_cons_of_mem _ (ih l hm x hx)
    · rw [splitAll_cons_ne sep c cs hc] at hl
      cases hr : splitAll sep cs with
      | nil => exact absurd hr (splitAll_ne_nil sep cs)
      | cons hh tt =>
        rw [hr] at hl
        simp only [] at hl
        rcases List.mem_cons.mp hl with he | hm
        · subst he
          rcases List.mem_cons.mp hx with he2 | hm2
          · exact he2 ▸ List.mem_cons_self _ _
          · exact List.mem_cons_of_mem _
              (ih hh (by rw [hr]; exact List.mem_cons_self _ _) x hm2)
        · exact List.mem_cons_of_mem _
            (ih l (by rw [hr]; exact List.mem_cons_of_mem _ hm) x hx)

theorem splitAll_not_mem (sep : Char) (s : Chars) (h : sep ∉ s) :
    splitAll sep s = [s] := by
  induction s with
  | nil => simp [splitAll]
  | cons c cs ih =>
    have hc : c ≠ sep := fun he => h (he ▸ List.mem_cons_self c cs)
    have hcs : sep ∉ cs := fun hm => h (List.mem_cons_of_mem _ hm)
    rw [splitAll_cons_ne sep c cs hc, ih hcs]

theorem splitAll_mem_len (sep : Char) (s : Chars) (h : sep ∈ s) :
    2 ≤ (splitAll sep s).length := by
  induction s with
  | nil => simp at h
  | cons c cs ih =>
    by_cases hc : c = sep
    · subst hc
      rw [splitAll_cons_sep]
      have := splitAll_ne_nil c cs
      have hlen : 1 ≤ (splitAll c cs).length := List.length_pos.mpr this
      simp only [List.length_cons]
      omega
    · have hm : sep ∈ cs := by
        rcases List.mem_cons.mp h with he | hm
        · exact absurd he.symm hc
        · exact hm
      rw [splitAll_cons_ne sep c cs hc]
      cases hr : splitAll sep cs with
      | nil => exact absurd hr (splitAll_ne_nil sep cs)
      | cons hh tt =>
        have := ih hm
        rw [hr] at this
        simpa using this

theorem afterLast_cons_self (sep : Char) (cs : Chars) :
    afterLast sep (sep :: cs) = afterLast sep cs := by
  have h3 := afterLast_append_sep sep [] cs
  simpa using h3

theorem afterLast_cons_of_mem (sep c : Char) (cs : Chars) (h : sep ∈ cs) :
    afterLast sep (c :: cs) = afterLast sep cs := by
  obtain ⟨q, hq⟩ := afterLast_decomp sep cs h
  have hA : sep ∉ afterLast sep cs := afterLast_sep_not_mem sep cs
  conv_lhs => rw [hq]
  rw [show c :: (q ++ sep :: afterLast sep cs)
      = (c :: q) ++ sep :: afterLast sep cs by simp]
  rw [afterLast_append_sep sep (c :: q) (afterLast sep cs),
      afterLast_not_mem sep _ hA]

theorem splitAll_getLast (sep : Char) (s : Chars) :
    (splitAll sep s).getLast? = some (afterLast sep s) := by
  induction s with
  | nil => simp [splitAll, afterLast, splitFirst]
  | cons c cs ih =>
    by_cases hc : c = sep
    · subst hc
      rw [splitAll_cons_sep]
      cases hr : splitAll c cs with
      | nil => exact absurd hr (splitAll_ne_nil c cs)
      | cons hh tt =>
        rw [List.getLast?_cons_cons]
        rw [hr] at ih
        rw [ih, afterLast_cons_self]
    · rw [splitAll_cons_ne sep c cs hc]
      cases hr : splitAll sep cs with
      | nil => exact absurd hr (splitAll_ne_nil sep cs)
      | cons hh tt =>
        rw [hr] at ih
        simp only []
        cases tt with
        | nil =>
          have hh_eq : hh = afterLast sep cs := by simpa using ih
          have hnm : sep ∉ cs := by
            intro hm
            have h2 := splitAll_mem_len sep cs hm
            rw [hr] at h2
            simp at h2
          have h4 : afterLast sep cs = cs := afterLast_not_mem sep cs hnm
          have h5 : afterLast sep (c :: cs) = c :: cs := by
            apply afterLast_not_mem
            intro hm
            rcases List.mem_cons.mp hm with he | hm2
            · exact hc he.symm
            · exact hnm hm2
          rw [h5]
          simp [hh_eq, h4]
        | cons t1 ts =>
          rw [List.getLast?_cons_cons]
          rw [List.getLast?_cons_cons] at ih
          rw [ih]
          have hm : sep ∈ cs := by
            by_contra hnm
            rw [splitAll_not_mem sep cs hnm] at hr
            simp at hr
          rw [afterLast_cons_of_mem sep c cs hm]

theorem joinSegs_chars (L : List Chars) :
    ∀ x ∈ joinSegs L, x = '/' ∨ ∃ l ∈ L, x ∈ l := by
  induction L with
  | nil => intro x hx; simp [joinSegs] at hx
  | cons a t ih =>
    intro x hx
    cases t with
    | nil => exact Or.inr ⟨a, List.mem_cons_self _ _, hx⟩
    | cons b t2 =>
      have hx2 : x ∈ a ++ '/' :: joinSegs (b :: t2) := hx
      rcases List.mem_append.mp hx2 with hxa | hxr
      · exact Or.inr ⟨a, List.mem_cons_self _ _, hxa⟩
      · rcases List.mem_cons.mp hxr with he | hxj
        · exact Or.inl he
        · rcases ih x hxj with he | ⟨l, hl, hxl⟩
          · exact Or.inl he
          · exact Or.inr ⟨l, List.mem_cons_of_mem _ hl, hxl⟩

theorem joinSegs_afterLast (L : List Chars) (z : Chars)
    (hL : L.getLast? = some z) (hfree : ∀ l ∈ L, '/' ∉ l) :
    afterLast '/' (joinSegs L) = z := by
  induction L with
  | nil => simp at hL
  | cons a t ih =>
    cases t with
    | nil =>
      have ha : a = z := by simpa using hL
      subst ha
      have h2 : joinSegs [a] = a := rfl
      rw [h2]
      exact afterLast_not_mem '/' a (hfree a (List.mem_cons_self _ _))
    | cons b t2 =>
      rw [List.getLast?_cons_cons] at hL
      have h2 : joinSegs (a :: b :: t2) = a ++ '/' :: joinSegs (b :: t2) := rfl
      rw [h2, afterLast_append_sep '/' a (joinSegs (b :: t2))]
      exact ih hL (fun l hl => hfree l (List.mem_cons_of_mem _ hl))

theorem filterMiddle_arm (x r1 : Chars) (rs : List Chars) :
    filterMiddle (x :: r1 :: rs)
      = x :: (((r1 :: rs).dropLast.filter (fun s => s ≠ []))
          ++ [(r1 :: rs).getLast (by simp)]) := by
  have hgl := List.getLast?_eq_getLast (r1 :: rs) (by simp)
  show (match (r1 :: rs).getLast? with
    | none => [x]
    | some last => x :: (((r1 :: rs).dropLast.filter (fun s => s ≠ [])) ++ [last])) = _
  rw [hgl]

theorem filterMiddle_mem (L : List Chars) : ∀ l ∈ filterMiddle L, l ∈ L := by
  cases L with
  | nil => intro l hl; simp [filterMiddle] at hl
  | cons x rest =>
    cases rest with
    | nil => intro l hl; simpa [filterMiddle] using hl
    | cons r1 rs =>
      intro l hl
      rw [filterMiddle_arm] at hl
      rcases List.mem_cons.mp hl with he | hm
      · exact he ▸ List.mem_cons_self _ _
      · rcases List.mem_append.mp hm with h3 | h3
        · exact List.mem_cons_of_mem _
            ((List.dropLast_sublist (r1 :: rs)).subset (List.mem_of_mem_filter h3))
        · simp only [List.mem_singleton] at h3
          subst h3
          exact List.mem_cons_of_mem _ (List.getLast_mem _)

theorem filterMiddle_getLast (L : List Chars) (hne : L ≠ []) :
    (filterMiddle L).getLast? = L.getLast? := by
  cases L with
  | nil => simp at hne
  | cons x rest =>
    cases rest with
    | nil => rfl
    | cons r1 rs =>
      rw [filterMiddle_arm]
      rw [show x :: (((r1 :: rs).dropLast.filter (fun s => s ≠ []))
          ++ [(r1 :: rs).getLast (by simp)])
        = (x :: ((r1 :: rs).dropLast.filter (fun s => s ≠ [])))
          ++ [(r1 :: rs).getLast (by simp)] by simp]
      rw [List.getLast?_concat]
      rw [List.getLast?_cons_cons]
      rw [List.getLast?_eq_getLast (r1 :: rs) (by simp)]

theorem resolveSegs_mem (L : List Chars) : ∀ x ∈ resolveSegs L, x ∈ L := by
  suffices h : ∀ acc, ∀ x ∈ List.foldl
      (fun acc seg => if seg = ['.', '.'] then acc.dropLast
        else if seg = ['.'] then acc else acc ++ [seg]) acc L, x ∈ acc ∨ x ∈ L by
    intro x hx
    rcases h [] x hx with h2 | h2
    · simp at h2
    · exact h2
  induction L with
  | nil => intro acc x hx; exact Or.inl hx
  | cons s t ih =>
    intro acc x hx
    simp only [List.foldl_cons] at hx
    rcases ih _ x hx with h2 | h2
    · by_cases h1 : s = ['.', '.']
      · rw [if_pos h1] at h2
        exact Or.inl ((List.dropLast_sublist acc).subset h2)
      · rw [if_neg h1] at h2
        by_cases h3 : s = ['.']
        · rw [if_pos h3] at h2
          exact Or.inl h2
        · rw [if_neg h3] at h2
          rcases List.mem_append.mp h2 with h4 | h4
          · exact Or.inl h4
          · simp only [List.mem_singleton] at h4
            subst h4
            exact Or.inr (List.mem_cons_self _ _)
    · exact Or.inr (List.mem_cons_of_mem _ h2)

theorem resolveSegs_getLast (L : List Chars) (z : Chars)
    (hz : L.getLast? = some z) (h1 : z ≠ ['.']) (h2 : z ≠ ['.', '.']) :
    (resolveSegs L).getLast? = some z := by
  have hne : L ≠ [] := by
    intro he
    rw [he] at hz
    simp at hz
  have hzl : L.getLast hne = z := by
    have h3 := List.getLast?_eq_getLast L hne
    rw [h3] at hz
    exact Option.some.inj hz
  have hL : L = L.dropLast ++ [z] := by
    have h4 := List.dropLast_concat_getLast hne
    rw [hzl] at h4
    exact h4.symm
  unfold resolveSegs
  conv_lhs => rw [hL]
  rw [List.foldl_append]
  simp only [List.foldl_cons, List.foldl_nil]
  rw [if_neg h2, if_neg h1]
  exact List.getLast?_concat _

theorem filter_unsafe_id (l : Chars) (h : ∀ c ∈ l, isUnsafeUrlCh c = false) :
    l.filter (fun c => !(isUnsafeUrlCh c)) = l := by
  rw [List.filter_eq_self]
  intro a ha
  rw [h a ha]
  rfl

theorem urlsplit_rt (s n P q qt : Chars)
    (hqt : (q = [] ∧ qt = []) ∨ qt = '?' :: q)
    (hs_ne : s ≠ [])
    (hs_alpha : headIsAlpha s = true)
    (hs_all : s.all schemeCh = true)
    (hs_lower : lowerL s = s)
    (hs_colon : ':' ∉ s)
    (hs_clean : ∀ c ∈ s, isUnsafeUrlCh c = false)
    (hn_ne : n ≠ [])
    (hn_clean : ∀ c ∈ n, netlocEnd c = false ∧ isUnsafeUrlCh c = false)
    (hb1 : ¬ ((hasSub ['['] n ∧ ¬ hasSub [']'] n) ∨
        (hasSub [']'] n ∧ ¬ hasSub ['['] n)))
    (hb2 : ¬ (hasSub ['['] n ∧ hasSub [']'] n ∧
        !(checkBracketedHost ((splitFirst ']' ((splitFirst '[' n).2.getD [])).1))))
    (hP : P = [] ∨ ∃ t, P = '/' :: t)
    (hP_clean : ∀ c ∈ P, c ≠ '#' ∧ c ≠ '?' ∧ isUnsafeUrlCh c = false)
    (hq_clean : ∀ c ∈ q, c ≠ '#' ∧ isUnsafeUrlCh c = false) :
    urlsplitE (s ++ ':' :: '/' :: '/' :: (n ++ (P ++ qt))) [] = .ok ⟨s, n, P, q, []⟩ := by
  have hqtc : ∀ c ∈ qt, (c = '?' ∨ c ∈ q) := by
    intro c hc
    rcases hqt with ⟨hq0, hqt0⟩ | hqt0
    · rw [hqt0] at hc; simp at hc
    · rw [hqt0] at hc
      rcases List.mem_cons.mp hc with he | hm
      · exact Or.inl he
      · exact Or.inr hm
  unfold urlsplitE
  simp only []
  have hdw : (s ++ ':' :: '/' :: '/' :: (n ++ (P ++ qt))).dropWhile isC0OrSpace
      = s ++ ':' :: '/' :: '/' :: (n ++ (P ++ qt)) := by
    cases s with
    | nil => exact absurd rfl hs_ne
    | cons c0 s1 =>
      have hc0 : isAsciiAlpha c0 = true := hs_alpha
      have hcs : isC0OrSpace c0 = false := by
        simp only [isAsciiAlpha, Bool.or_eq_true, decide_eq_true_eq] at hc0
        simp only [isC0OrSpace, decide_eq_false_iff_not]
        rcases hc0 with ⟨h1, _⟩ | ⟨h1, _⟩
        · have h3 : 97 ≤ c0.toNat := h1
          omega
        · have h3 : 65 ≤ c0.toNat := h1
          omega
      rw [List.cons_append, List.dropWhile_cons, if_neg (by simp [hcs])]
  have hfil : (s ++ ':' :: '/' :: '/' :: (n ++ (P ++ qt))).filter
      (fun c => !(isUnsafeUrlCh c)) = s ++ ':' :: '/' :: '/' :: (n ++ (P ++ qt)) := by
    apply filter_unsafe_id
    intro c hc
    rcases List.mem_append.mp hc with h1 | h1
    · exact hs_clean c h1
    rcases List.mem_cons.mp h1 with rfl | h2
    · decide
    rcases List.mem_cons.mp h2 with rfl | h3
    · decide
    rcases List.mem_cons.mp h3 with rfl | h4
    · decide
    rcases List.mem_append.mp h4 with h5 | h5
    · exact (hn_clean c h5).2
    rcases List.mem_append.mp h5 with h6 | h6
    · exact (hP_clean c h6).2.2
    rcases hqtc c h6 with rfl | h7
    · decide
    · exact (hq_clean c h7).2
  rw [hdw, hfil]
  have hscheme : splitScheme (s ++ ':' :: '/' :: '/' :: (n ++ (P ++ qt)))
      = some (s, '/' :: '/' :: (n ++ (P ++ qt))) := by
    unfold splitScheme
    rw [splitFirst_append_not_mem ':' s (':' :: ('/' :: '/' :: (n ++ (P ++ qt)))) hs_colon]
    have h1 : splitFirst ':' (':' :: ('/' :: '/' :: (n ++ (P ++ qt))))
        = ([], some ('/' :: '/' :: (n ++ (P ++ qt)))) := by
      simp [splitFirst]
    rw [h1]
    simp only []
    simp only [List.append_nil]
    have hcond : (!s.isEmpty && headIsAlpha s && s.all schemeCh) = true := by
      simp only [Bool.and_eq_true]
      refine ⟨⟨?_, hs_alpha⟩, hs_all⟩
      cases s with
      | nil => exact absurd rfl hs_ne
      | cons a b => rfl
    rw [if_pos hcond, hs_lower]
  rw [hscheme]
  simp only []
  have hdrop : ('/' :: '/' :: (n ++ (P ++ qt))).drop 2 = n ++ (P ++ qt) := rfl
  have htd := takeWhile_append_sat (fun c => !(netlocEnd c)) n (P ++ qt)
    (fun c hc => by simp [(hn_clean c hc).1])
    (by
      rcases hP with rfl | ⟨t, rfl⟩
      · rcases hqt with ⟨hq0, hqt0⟩ | hqt0
        · rw [hqt0]; left; rfl
        · rw [hqt0]; right; exact ⟨'?', q, by simp, by decide⟩
      · right
        exact ⟨'/', t ++ qt, by simp, by decide⟩)
  have hnet : splitNetloc ('/' :: '/' :: (n ++ (P ++ qt))) = .ok (n, P ++ qt) := by
    unfold splitNetloc
    have hpre : hasPre ['/', '/'] ('/' :: '/' :: (n ++ (P ++ qt))) = true := by
      simp [hasPre]
    rw [if_pos hpre]
    simp only []
    rw [hdrop, htd.1, htd.2]
    rw [if_neg hb1]
  rw [hnet]
  simp only []
  rw [if_neg hb2]
  have hhash : '#' ∉ P ++ qt := by
    intro hm
    rcases List.mem_append.mp hm with h1 | h1
    · exact (hP_clean '#' h1).1 rfl
    · rcases hqtc '#' h1 with he | h2
      · simp at he
      · exact (hq_clean '#' h2).1 rfl
  rw [splitFirst_not_mem '#' (P ++ qt) hhash]
  simp only []
  have hqm : '?' ∉ P := fun hm => (hP_clean '?' hm).2.1 rfl
  rcases hqt with ⟨hq0, hqt0⟩ | hqt0
  · subst hq0
    subst hqt0
    rw [List.append_nil, splitFirst_not_mem '?' P hqm]
    rfl
  · subst hqt0
    rw [splitFirst_append_not_mem '?' P ('?' :: q) hqm]
    have h1 : splitFirst '?' ('?' :: q) = ([], some q) := by simp [splitFirst]
    rw [h1]
    simp

theorem slash_idem (x : Chars) :
    (if (if x ≠ [] ∧ x.take 1 ≠ ['/'] then '/' :: x else x) ≠ [] ∧
        (if x ≠ [] ∧ x.take 1 ≠ ['/'] then '/' :: x else x).take 1 ≠ ['/']
     then '/' :: (if x ≠ [] ∧ x.take 1 ≠ ['/'] then '/' :: x else x)
     else (if x ≠ [] ∧ x.take 1 ≠ ['/'] then '/' :: x else x))
    = (if x ≠ [] ∧ x.take 1 ≠ ['/'] then '/' :: x else x) := by
  by_cases h : x ≠ [] ∧ x.take 1 ≠ ['/']
  · rw [if_pos h]
    exact if_neg (fun hc => hc.2 rfl)
  · rw [if_neg h]
    exact if_neg h

theorem slash_recomb (p par : Chars) (hpar : par ≠ []) :
    (if (p ++ ';' :: par) ≠ [] ∧ (p ++ ';' :: par).take 1 ≠ ['/']
     then '/' :: p else p) ++ ';' :: par
    = (if (p ++ ';' :: par) ≠ [] ∧ (p ++ ';' :: par).take 1 ≠ ['/']
       then '/' :: (p ++ ';' :: par) else (p ++ ';' :: par)) := by
  by_cases h : (p ++ ';' :: par).take 1 ≠ ['/']
  · rw [if_pos ⟨by simp, h⟩, if_pos ⟨by simp, h⟩]
    simp
  · rw [if_neg (fun hc => h hc.2), if_neg (fun hc => h hc.2)]

theorem urlunsplit_congr (s n x y q f : Chars) (hn : n ≠ [])
    (hxy : (if x ≠ [] ∧ x.take 1 ≠ ['/'] then '/' :: x else x)
         = (if y ≠ [] ∧ y.take 1 ≠ ['/'] then '/' :: y else y)) :
    urlunsplit s n x q f = urlunsplit s n y q f := by
  unfold urlunsplit
  simp only []
  rw [if_pos (Or.inl hn), if_pos (Or.inl hn), hxy]

theorem urlunparse_pathAdj (s n p par q : Chars) (hn : n ≠ []) :
    urlunparse ⟨s, n, pathAdj ⟨s, n, p, par, q, []⟩, par, q, []⟩
      = urlunparse ⟨s, n, p, par, q, []⟩ := by
  unfold urlunparse
  simp only []
  apply urlunsplit_congr _ _ _ _ _ _ hn
  have hpa : pathAdj ⟨s, n, p, par, q, ([] : Chars)⟩
      = if (if par ≠ [] then p ++ ';' :: par else p) ≠ [] ∧
          (if par ≠ [] then p ++ ';' :: par else p).take 1 ≠ ['/']
        then '/' :: p else p := rfl
  rw [hpa]
  by_cases hpar : par = []
  · have hppe : (if par ≠ [] then p ++ ';' :: par else p) = p :=
      if_neg (fun h2 => h2 hpar)
    rw [hppe]
    have hppe2 : (if par ≠ [] then
        (if p ≠ [] ∧ p.take 1 ≠ ['/'] then '/' :: p else p) ++ ';' :: par
      else (if p ≠ [] ∧ p.take 1 ≠ ['/'] then '/' :: p else p))
        = (if p ≠ [] ∧ p.take 1 ≠ ['/'] then '/' :: p else p) :=
      if_neg (fun h2 => h2 hpar)
    rw [hppe2]
    exact slash_idem p
  · have hppe : (if par ≠ [] then p ++ ';' :: par else p) = p ++ ';' :: par :=
      if_pos hpar
    rw [hppe]
    have hppe2 : (if par ≠ [] then
        (if (p ++ ';' :: par) ≠ [] ∧ (p ++ ';' :: par).take 1 ≠ ['/']
         then '/' :: p else p) ++ ';' :: par
      else (if (p ++ ';' :: par) ≠ [] ∧ (p ++ ';' :: par).take 1 ≠ ['/']
         then '/' :: p else p))
        = (if (p ++ ';' :: par) ≠ [] ∧ (p ++ ';' :: par).take 1 ≠ ['/']
         then '/' :: p else p) ++ ';' :: par :=
      if_pos hpar
    rw [hppe2, slash_recomb p par hpar]
    exact slash_idem (p ++ ';' :: par)

theorem urlunparse_shape (C : ParseResult) (hn : C.netloc ≠ []) (hs : C.scheme ≠ [])
    (hf : C.fragment = []) :
    urlunparse C = C.scheme ++ ':' :: '/' :: '/' ::
      (C.netloc ++ (unsplitPath C ++ (if C.query ≠ [] then '?' :: C.query else []))) := by
  obtain ⟨s, n, p, par, q, fr⟩ := C
  simp only [] at hn hs hf ⊢
  subst hf
  unfold urlunparse urlunsplit unsplitPath ppOf
  simp only []
  rw [if_pos (Or.inl hn), if_pos hs, if_neg (by simp : ¬ (([] : Chars) ≠ []))]
  by_cases hq : q ≠ []
  · rw [if_pos hq, if_pos hq]
    simp [List.append_assoc]
  · rw [if_neg hq, if_neg hq]
    simp

theorem urlunparse_frag (C : ParseResult) (f : Chars) (hf : f ≠ []) :
    urlunparse { C with fragment := f }
      = urlunparse { C with fragment := [] } ++ '#' :: f := by
  obtain ⟨s, n, p, par, q, fr⟩ := C
  unfold urlunparse urlunsplit
  simp only []
  rw [if_pos hf, if_neg (by simp : ¬ (([] : Chars) ≠ []))]

theorem rtOK_frag (C : ParseResult) (g : Chars) (h : rtOK C) :
    rtOK { C with fragment := g } :=
  ⟨h.scheme_http, h.netloc_ne, h.netloc_clean, h.netloc_br1, h.netloc_br2,
   h.path_clean, h.path_semi, h.params_clean, h.params_slash, h.query_clean⟩

theorem urlparse_rt (s n p par q : Chars) (h : rtOK ⟨s, n, p, par, q, []⟩) :
    urlparseE (urlunparse ⟨s, n, p, par, q, []⟩) []
      = .ok ⟨s, n, pathAdj ⟨s, n, p, par, q, []⟩, par, q, []⟩ := by
  have hs : s = "http".toList ∨ s = "https".toList := h.scheme_http
  have hnne : n ≠ [] := h.netloc_ne
  have hncl : ∀ c ∈ n, netlocEnd c = false ∧ isUnsafeUrlCh c = false := h.netloc_clean
  have hbr1 : ¬ ((hasSub ['['] n ∧ ¬ hasSub [']'] n) ∨
      (hasSub [']'] n ∧ ¬ hasSub ['['] n)) := h.netloc_br1
  have hbr2 : ¬ (hasSub ['['] n ∧ hasSub [']'] n ∧
      !(checkBracketedHost ((splitFirst ']' ((splitFirst '[' n).2.getD [])).1))) :=
    h.netloc_br2
  have hpcl : ∀ c ∈ p, c ≠ '#' ∧ c ≠ '?' ∧ isUnsafeUrlCh c = false := h.path_clean
  have hsemi : ';' ∉ afterLast '/' p := h.path_semi
  have hparcl : ∀ c ∈ par, c ≠ '#' ∧ c ≠ '?' ∧ isUnsafeUrlCh c = false := h.params_clean
  have hparsl : '/' ∉ par := h.params_slash
  have hqcl : ∀ c ∈ q, c ≠ '#' ∧ isUnsafeUrlCh c = false := h.query_clean
  have hs_ne : s ≠ [] := by rcases hs with rfl | rfl <;> decide
  have hs_alpha : headIsAlpha s = true := by rcases hs with rfl | rfl <;> decide
  have hs_all : s.all schemeCh = true := by rcases hs with rfl | rfl <;> decide
  have hs_lower : lowerL s = s := by rcases hs with rfl | rfl <;> decide
  have hs_colon : ':' ∉ s := by rcases hs with rfl | rfl <;> decide
  have hs_clean : ∀ c ∈ s, isUnsafeUrlCh c = false := by
    rcases hs with rfl | rfl <;> decide
  have hs_params : s ∈ usesParams := by rcases hs with rfl | rfl <;> decide
  have hup : unsplitPath ⟨s, n, p, par, q, ([] : Chars)⟩
      = if (if par ≠ [] then p ++ ';' :: par else p) ≠ [] ∧
          (if par ≠ [] then p ++ ';' :: par else p).take 1 ≠ ['/']
        then '/' :: (if par ≠ [] then p ++ ';' :: par else p)
        else (if par ≠ [] then p ++ ';' :: par else p) := rfl
  have hpa : pathAdj ⟨s, n, p, par, q, ([] : Chars)⟩
      = if (if par ≠ [] then p ++ ';' :: par else p) ≠ [] ∧
          (if par ≠ [] then p ++ ';' :: par else p).take 1 ≠ ['/']
        then '/' :: p else p := rfl
  have hP : unsplitPath ⟨s, n, p, par, q, ([] : Chars)⟩ = []
      ∨ ∃ t, unsplitPath ⟨s, n, p, par, q, ([] : Chars)⟩ = '/' :: t := by
    rw [hup]
    by_cases hc : (if par ≠ [] then p ++ ';' :: par else p) ≠ [] ∧
        (if par ≠ [] then p ++ ';' :: par else p).take 1 ≠ ['/']
    · rw [if_pos hc]
      exact Or.inr ⟨_, rfl⟩
    · rw [if_neg hc]
      rcases Decidable.not_and_iff_or_not.mp hc with hc1 | hc2
      · left
        by_contra hne
        exact hc1 hne
      · cases hpp : (if par ≠ [] then p ++ ';' :: par else p) with
        | nil => exact Or.inl rfl
        | cons c0 t0 =>
          right
          refine ⟨t0, ?_⟩
          have ht1 : (c0 :: t0).take 1 = ['/'] := by
            rw [hpp] at hc2
            rcases Decidable.not_not.mp hc2 with h3
            exact h3
          have hc0 : c0 = '/' := by
            simpa using ht1
          rw [hc0]
  have hPclean : ∀ c ∈ unsplitPath ⟨s, n, p, par, q, ([] : Chars)⟩,
      c ≠ '#' ∧ c ≠ '?' ∧ isUnsafeUrlCh c = false := by
    intro c hc
    rw [hup] at hc
    have hmem : c ∈ '/' :: (if par ≠ [] then p ++ ';' :: par else p) := by
      by_cases hcnd : (if par ≠ [] then p ++ ';' :: par else p) ≠ [] ∧
          (if par ≠ [] then p ++ ';' :: par else p).take 1 ≠ ['/']
      · rw [if_pos hcnd] at hc
        exact hc
      · rw [if_neg hcnd] at hc
        exact List.mem_cons_of_mem _ hc
    rcases List.mem_cons.mp hmem with rfl | hm2
    · exact ⟨by decide, by decide, by decide⟩
    · have hm3 : c ∈ p ++ ';' :: par := by
        by_cases hpar : par = []
        · rw [if_neg (fun h2 => h2 hpar)] at hm2
          exact List.mem_append.mpr (Or.inl hm2)
        · rw [if_pos hpar] at hm2
          exact hm2
      rcases List.mem_append.mp hm3 with h4 | h4
      · exact hpcl c h4
      · rcases List.mem_cons.mp h4 with rfl | h5
        · exact ⟨by decide, by decide, by decide⟩
        · exact hparcl c h5
  rw [urlunparse_shape ⟨s, n, p, par, q, []⟩ hnne hs_ne rfl]
  unfold urlparseE
  rw [urlsplit_rt s n (unsplitPath ⟨s, n, p, par, q, []⟩) q
      (if q ≠ [] then '?' :: q else [])
      (by
        by_cases hq : q = []
        · exact Or.inl ⟨hq, if_neg (fun h2 => h2 hq)⟩
        · exact Or.inr (if_pos hq))
      hs_ne hs_alpha hs_all hs_lower hs_colon hs_clean hnne hncl hbr1 hbr2
      hP hPclean hqcl]
  simp only []
  rw [hup, hpa]
  by_cases hpar : par = []
  · have hppe : (if par ≠ [] then p ++ ';' :: par else p) = p :=
      if_neg (fun h2 => h2 hpar)
    rw [hppe]
    have hpar0 : par = [] := hpar
    rw [hpar0]
    have hsemiY : ';' ∉ afterLast '/'
        (if p ≠ [] ∧ p.take 1 ≠ ['/'] then '/' :: p else p) := by
      by_cases hcnd : p ≠ [] ∧ p.take 1 ≠ ['/']
      · rw [if_pos hcnd, afterLast_cons_self]
        exact hsemi
      · rw [if_neg hcnd]
        exact hsemi
    by_cases hss : hasSub [';'] (if p ≠ [] ∧ p.take 1 ≠ ['/'] then '/' :: p else p) = true
    · rw [if_pos ⟨hs_params, hss⟩, splitParams_id _ hsemiY]
    · rw [if_neg (fun hc => hss hc.2)]
  · have hppe : (if par ≠ [] then p ++ ';' :: par else p) = p ++ ';' :: par :=
      if_pos hpar
    rw [hppe]
    have hcne : p ++ ';' :: par ≠ [] := by simp
    have hsemi2 : ';' ∉ afterLast '/' ('/' :: p) := by
      rw [afterLast_cons_self]
      exact hsemi
    by_cases hsl : (p ++ ';' :: par).take 1 ≠ ['/']
    · have hYe : (if (p ++ ';' :: par) ≠ [] ∧ (p ++ ';' :: par).take 1 ≠ ['/']
          then '/' :: (p ++ ';' :: par) else (p ++ ';' :: par))
          = '/' :: (p ++ ';' :: par) := if_pos ⟨hcne, hsl⟩
      have hZe : (if (p ++ ';' :: par) ≠ [] ∧ (p ++ ';' :: par).take 1 ≠ ['/']
          then '/' :: p else p) = '/' :: p := if_pos ⟨hcne, hsl⟩
      rw [hYe, hZe]
      have hss : hasSub [';'] ('/' :: (p ++ ';' :: par)) = true := by
        rw [hasSub_single_iff]
        exact List.mem_cons_of_mem _ (List.mem_append.mpr (Or.inr (List.mem_cons_self _ _)))
      rw [if_pos ⟨hs_params, hss⟩]
      have hsp2 : splitParams ('/' :: (p ++ ';' :: par)) = ('/' :: p, par) := by
        have h2 := splitParams_exact ('/' :: p) par hsemi2 hparsl hpar
        rw [show ('/' :: p) ++ ';' :: par = '/' :: (p ++ ';' :: par) by simp] at h2
        exact h2
      rw [hsp2]
    · have hYe : (if (p ++ ';' :: par) ≠ [] ∧ (p ++ ';' :: par).take 1 ≠ ['/']
          then '/' :: (p ++ ';' :: par) else (p ++ ';' :: par))
          = p ++ ';' :: par := if_neg (fun hc => hsl hc.2)
      have hZe : (if (p ++ ';' :: par) ≠ [] ∧ (p ++ ';' :: par).take 1 ≠ ['/']
          then '/' :: p else p) = p := if_neg (fun hc => hsl hc.2)
      rw [hYe, hZe]
      have hss : hasSub [';'] (p ++ ';' :: par) = true := by
        rw [hasSub_single_iff]
        exact List.mem_append.mpr (Or.inr (List.mem_cons_self _ _))
      rw [if_pos ⟨hs_params, hss⟩]
      rw [splitParams_exact p par hsemi hparsl hpar]

theorem defrag_rt (s n p par q f : Chars) (h : rtOK ⟨s, n, p, par, q, []⟩) :
    urldefragE (urlunparse ⟨s, n, p, par, q, f⟩)
      = .ok (urlunparse ⟨s, n, p, par, q, []⟩) := by
  have hnne : n ≠ [] := h.netloc_ne
  have hs : s = "http".toList ∨ s = "https".toList := h.scheme_http
  have hsh : '#' ∉ s := by rcases hs with rfl | rfl <;> decide
  have hnh : '#' ∉ n := by
    intro hm
    have h2 := (h.netloc_clean '#' hm).1
    simp [netlocEnd] at h2
  have hph : '#' ∉ p := fun hm => (h.path_clean '#' hm).1 rfl
  have hparh : '#' ∉ par := fun hm => (h.params_clean '#' hm).1 rfl
  have hqh : '#' ∉ q := fun hm => (h.query_clean '#' hm).1 rfl
  have hw_nohash : '#' ∉ urlunparse ⟨s, n, p, par, q, []⟩ :=
    urlunparse_no_hash ⟨s, n, p, par, q, []⟩ hsh hnh hph hparh hqh rfl
  by_cases hf : f = []
  · subst hf
    unfold urldefragE
    rw [if_neg (fun hc => hw_nohash ((hasSub_single_iff '#' _).mp hc))]
  · have hfr : urlunparse ⟨s, n, p, par, q, f⟩
        = urlunparse ⟨s, n, p, par, q, []⟩ ++ '#' :: f := by
      exact urlunparse_frag ⟨s, n, p, par, q, ([] : Chars)⟩ f hf
    rw [hfr]
    unfold urldefragE
    have hhs : hasSub ['#'] (urlunparse ⟨s, n, p, par, q, []⟩ ++ '#' :: f) = true := by
      rw [hasSub_single_iff]
      exact List.mem_append.mpr (Or.inr (List.mem_cons_self _ _))
    rw [if_pos hhs]
    rw [urlparseE_frag_ext _ f [] hw_nohash]
    rw [urlparse_rt s n p par q h]
    simp only []
    show Except.ok (urlunparse ⟨s, n, pathAdj ⟨s, n, p, par, q, []⟩, par, q, []⟩)
        = Except.ok (urlunparse ⟨s, n, p, par, q, []⟩)
    rw [urlunparse_pathAdj s n p par q hnne]

theorem urljoinE_mkJoin (base u : Chars) (b r : ParseResult)
    (hbase : base ≠ []) (hu : u ≠ [])
    (hb : urlparseE base [] = .ok b) (hr : urlparseE u b.scheme = .ok r)
    (hrs : r.scheme = b.scheme) (hrel : r.scheme ∈ usesRelative) :
    urljoinE base u = .ok (urlunparse (mkJoin b r)) := by
  unfold urljoinE mkJoin
  rw [if_neg hbase, if_neg hu, hb]
  simp only []
  rw [hr]
  simp only []
  rw [if_neg (fun hc => hc.elim (fun h1 => h1 hrs) (fun h2 => h2 hrel))]
  by_cases h1 : r.scheme ∈ usesNetloc ∧ r.netloc ≠ []
  · rw [if_pos h1, if_pos h1]
  · rw [if_neg h1, if_neg h1]
    by_cases h2 : r.path = [] ∧ r.params = []
    · rw [if_pos h2, if_pos h2]
    · rw [if_neg h2, if_neg h2]

theorem mkJoin_fragment (b r : ParseResult) (g : Chars) :
    mkJoin b { r with fragment := g } = { mkJoin b r with fragment := g } := by
  obtain ⟨s2, n2, p2, par2, q2, fr2⟩ := r
  unfold mkJoin
  simp only []
  by_cases h1 : s2 ∈ usesNetloc ∧ n2 ≠ []
  · rw [if_pos h1, if_pos h1]
  · rw [if_neg h1, if_neg h1]
    by_cases h2 : p2 = [] ∧ par2 = []
    · rw [if_pos h2, if_pos h2]
    · rw [if_neg h2, if_neg h2]

theorem mkJoin_fragment_eq (b r : ParseResult) :
    (mkJoin b r).fragment = r.fragment := by
  unfold mkJoin
  simp only []
  by_cases h1 : r.scheme ∈ usesNetloc ∧ r.netloc ≠ []
  · rw [if_pos h1]
  · rw [if_neg h1]
    by_cases h2 : r.path = [] ∧ r.params = []
    · rw [if_pos h2]
    · rw [if_neg h2]

theorem setFrag_eta (M : ParseResult) (h : M.fragment = []) :
    { M with fragment := ([] : Chars) } = M := by
  obtain ⟨a, b2, c, d, e, fr⟩ := M
  simp only [] at h
  subst h
  rfl

theorem rtOK_mkJoin (base u : Chars) (b r : ParseResult)
    (hb : urlparseE base [] = .ok b)
    (hr : urlparseE u b.scheme = .ok r)
    (hrs : r.scheme = b.scheme)
    (hbs : b.scheme = "http".toList ∨ b.scheme = "https".toList)
    (hbn : b.netloc ≠ []) :
    rtOK (mkJoin b r) := by
  obtain ⟨hbnetcl, hbbr1, hbbr2, hbpath, hbparams, hbquery, hbparsl⟩ :=
    urlparseE_clean base [] b hb
  obtain ⟨hrnetcl, hrbr1, hrbr2, hrpath, hrparams, hrquery, hrparsl⟩ :=
    urlparseE_clean u b.scheme r hr
  have hbsemi : ';' ∉ afterLast '/' b.path :=
    urlparseE_semi base [] b hb (by rcases hbs with h | h <;> (rw [h]; decide))
  have hrsemi : ';' ∉ afterLast '/' r.path :=
    urlparseE_semi u b.scheme r hr
      (by rw [hrs]; rcases hbs with h | h <;> (rw [h]; decide))
  have hrnet_in : r.scheme ∈ usesNetloc := by
    rw [hrs]; rcases hbs with h | h <;> (rw [h]; decide)
  have hsch : r.scheme = "http".toList ∨ r.scheme = "https".toList := by
    rw [hrs]; exact hbs
  unfold mkJoin
  simp only []
  rw [if_pos hrnet_in]
  by_cases h1 : r.scheme ∈ usesNetloc ∧ r.netloc ≠ []
  · rw [if_pos h1]
    exact ⟨hsch, h1.2, hrnetcl, hrbr1, hrbr2, hrpath, hrsemi, hrparams, hrparsl, hrquery⟩
  · rw [if_neg h1]
    have hnlne : (if r.netloc ≠ [] then r.netloc else b.netloc) ≠ [] := by
      by_cases hz : r.netloc ≠ []
      · rw [if_pos hz]; exact hz
      · rw [if_neg hz]; exact hbn
    have hnlcl : ∀ c ∈ (if r.netloc ≠ [] then r.netloc else b.netloc),
        netlocEnd c = false ∧ isUnsafeUrlCh c = false := by
      by_cases hz : r.netloc ≠ []
      · rw [if_pos hz]; exact hrnetcl
      · rw [if_neg hz]; exact hbnetcl
    have hnlbr1 : ¬ ((hasSub ['['] (if r.netloc ≠ [] then r.netloc else b.netloc) ∧
        ¬ hasSub [']'] (if r.netloc ≠ [] then r.netloc else b.netloc)) ∨
        (hasSub [']'] (if r.netloc ≠ [] then r.netloc else b.netloc) ∧
        ¬ hasSub ['['] (if r.netloc ≠ [] then r.netloc else b.netloc))) := by
      by_cases hz : r.netloc ≠ []
      · rw [if_pos hz]; exact hrbr1
      · rw [if_neg hz]; exact hbbr1
    have hnlbr2 : ¬ (hasSub ['['] (if r.netloc ≠ [] then r.netloc else b.netloc) ∧
        hasSub [']'] (if r.netloc ≠ [] then r.netloc else b.netloc) ∧
        !(checkBracketedHost ((splitFirst ']'
          ((splitFirst '[' (if r.netloc ≠ [] then r.netloc else b.netloc)).2.getD [])).1))) := by
      by_cases hz : r.netloc ≠ []
      · rw [if_pos hz]; exact hrbr2
      · rw [if_neg hz]; exact hbbr2
    by_cases h2 : r.path = [] ∧ r.params = []
    · rw [if_pos h2]
      have hq2 : ∀ c ∈ (if r.query = [] then b.query else r.query),
          c ≠ '#' ∧ isUnsafeUrlCh c = false := by
        by_cases hz : r.query = []
        · rw [if_pos hz]; exact hbquery
        · rw [if_neg hz]; exact hrquery
      exact ⟨hsch, hnlne, hnlcl, hnlbr1, hnlbr2, hbpath, hbsemi, hbparams, hbparsl, hq2⟩
    · rw [if_neg h2]
      set segs := (if r.path.take 1 = ['/'] then splitAll '/' r.path
        else filterMiddle ((if (splitAll '/' b.path).getLast? ≠ some []
          then (splitAll '/' b.path).dropLast else splitAll '/' b.path)
          ++ splitAll '/' r.path)) with hsegs
      have hsegs_chars : ∀ l ∈ segs, ∀ c ∈ l, c ∈ b.path ∨ c ∈ r.path := by
        rw [hsegs]
        by_cases ht : r.path.take 1 = ['/']
        · rw [if_pos ht]
          intro l hl c hc
          exact Or.inr (splitAll_mem_chars '/' r.path l hl c hc)
        · rw [if_neg ht]
          intro l hl c hc
          rcases List.mem_append.mp (filterMiddle_mem _ l hl) with h3 | h3
          · left
            by_cases hbp : (splitAll '/' b.path).getLast? ≠ some []
            · rw [if_pos hbp] at h3
              exact splitAll_mem_chars '/' b.path l
                ((List.dropLast_sublist _).subset h3) c hc
            · rw [if_neg hbp] at h3
              exact splitAll_mem_chars '/' b.path l h3 c hc
          · exact Or.inr (splitAll_mem_chars '/' r.path l h3 c hc)
      have hsegs_free : ∀ l ∈ segs, '/' ∉ l := by
        rw [hsegs]
        by_cases ht : r.path.take 1 = ['/']
        · rw [if_pos ht]
          exact splitAll_sep_free '/' r.path
        · rw [if_neg ht]
          intro l hl
          rcases List.mem_append.mp (filterMiddle_mem _ l hl) with h3 | h3
          · by_cases hbp : (splitAll '/' b.path).getLast? ≠ some []
            · rw [if_pos hbp] at h3
              exact splitAll_sep_free '/' b.path l ((List.dropLast_sublist _).subset h3)
            · rw [if_neg hbp] at h3
              exact splitAll_sep_free '/' b.path l h3
          · exact splitAll_sep_free '/' r.path l h3
      have hsegs_last : segs.getLast? = some (afterLast '/' r.path) := by
        rw [hsegs]
        by_cases ht : r.path.take 1 = ['/']
        · rw [if_pos ht]
          exact splitAll_getLast '/' r.path
        · rw [if_neg ht]
          have hapne : ((if (splitAll '/' b.path).getLast? ≠ some []
              then (splitAll '/' b.path).dropLast else splitAll '/' b.path)
              ++ splitAll '/' r.path) ≠ [] := by
            intro he
            rw [List.append_eq_nil] at he
            exact splitAll_ne_nil '/' r.path he.2
          rw [filterMiddle_getLast _ hapne]
          rw [List.getLast?_append_of_ne_nil _ (splitAll_ne_nil '/' r.path)]
          exact splitAll_getLast '/' r.path
      set rsv := (if segs.getLast? = some ['.'] ∨ segs.getLast? = some ['.', '.']
        then resolveSegs segs ++ [[]] else resolveSegs segs) with hrsv
      have hrsv_free : ∀ l ∈ rsv, '/' ∉ l := by
        rw [hrsv]
        by_cases hd : segs.getLast? = some ['.'] ∨ segs.getLast? = some ['.', '.']
        · rw [if_pos hd]
          intro l hl
          rcases List.mem_append.mp hl with h3 | h3
          · exact hsegs_free l (resolveSegs_mem segs l h3)
          · simp only [List.mem_singleton] at h3
            subst h3
            simp
        · rw [if_neg hd]
          intro l hl
          exact hsegs_free l (resolveSegs_mem segs l hl)
      have hrsv_chars : ∀ l ∈ rsv, ∀ c ∈ l, c ∈ b.path ∨ c ∈ r.path := by
        rw [hrsv]
        by_cases hd : segs.getLast? = some ['.'] ∨ segs.getLast? = some ['.', '.']
        · rw [if_pos hd]
          intro l hl c hc
          rcases List.mem_append.mp hl with h3 | h3
          · exact hsegs_chars l (resolveSegs_mem segs l h3) c hc
          · simp only [List.mem_singleton] at h3
            subst h3
            simp at hc
        · rw [if_neg hd]
          intro l hl c hc
          exact hsegs_chars l (resolveSegs_mem segs l hl) c hc
      have hrsv_semi : ∀ z, rsv.getLast? = some z → ';' ∉ z := by
        intro z hz
        rw [hrsv] at hz
        by_cases hd : segs.getLast? = some ['.'] ∨ segs.getLast? = some ['.', '.']
        · rw [if_pos hd, List.getLast?_concat] at hz
          have h4 := Option.some.inj hz
          subst h4
          simp
        · rw [if_neg hd] at hz
          have hz2 := resolveSegs_getLast segs (afterLast '/' r.path) hsegs_last
            (fun he => hd (Or.inl (by rw [hsegs_last, he])))
            (fun he => hd (Or.inr (by rw [hsegs_last, he])))
          rw [hz2] at hz
          have h4 := Option.some.inj hz
          subst h4
          exact hrsemi
      have hPJ_clean : ∀ c ∈ (if joinSegs rsv = [] then ['/'] else joinSegs rsv),
          c ≠ '#' ∧ c ≠ '?' ∧ isUnsafeUrlCh c = false := by
        intro c hc
        by_cases hj : joinSegs rsv = []
        · rw [if_pos hj] at hc
          simp only [List.mem_singleton] at hc
          subst hc
          exact ⟨by decide, by decide, by decide⟩
        · rw [if_neg hj] at hc
          rcases joinSegs_chars rsv c hc with rfl | ⟨l, hl, hcl⟩
          · exact ⟨by decide, by decide, by decide⟩
          · rcases hrsv_chars l hl c hcl with h5 | h5
            · exact hbpath c h5
            · exact hrpath c h5
      have hPJ_semi : ';' ∉ afterLast '/' (if joinSegs rsv = [] then ['/'] else joinSegs rsv) := by
        by_cases hj : joinSegs rsv = []
        · rw [if_pos hj]
          decide
        · rw [if_neg hj]
          have hrne : rsv ≠ [] := by
            intro he
            rw [he] at hj
            exact hj rfl
          cases hzq : rsv.getLast? with
          | none =>
            rw [List.getLast?_eq_none_iff] at hzq
            exact absurd hzq hrne
          | some z =>
            rw [joinSegs_afterLast rsv z hzq hrsv_free]
            exact hrsv_semi z hzq
      exact ⟨hsch, hnlne, hnlcl, hnlbr1, hnlbr2, hPJ_clean, hPJ_semi,
        hrparams, hrparsl, hrquery⟩

theorem base_ne_of_http (base : Chars) (b : ParseResult)
    (hb : urlparseE base [] = .ok b)
    (hbs : b.scheme = "http".toList ∨ b.scheme = "https".toList) : base ≠ [] := by
  intro he
  subst he
  have h0 : urlparseE [] [] = .ok (⟨[], [], [], [], [], []⟩ : ParseResult) := rfl
  rw [h0] at hb
  have h1 := Except.ok.inj hb
  rcases hbs with h2 | h2 <;> (rw [← h1] at h2; exact absurd h2 (by decide))

theorem lowerL_append_frag (core f : Chars) :
    lowerL (core ++ '#' :: f) = lowerL core ++ '#' :: lowerL f := by
  unfold lowerL
  rw [List.map_append]
  rfl

theorem hasPre_u_core (p core t : Chars) (hp : '#' ∉ p)
    (ht : t = [] ∨ ∃ f, t = '#' :: f) :
    hasPre p (lowerL (core ++ t)) = hasPre p (lowerL core) := by
  rcases ht with rfl | ⟨f, rfl⟩
  · rw [List.append_nil]
  · rw [lowerL_append_frag, hasPre_frag_ext p (lowerL core) (lowerL f) hp]

theorem hasPre_hash_core (core t : Chars) (hcne : core ≠ [])
    (ht : t = [] ∨ ∃ f, t = '#' :: f) :
    hasPre ['#'] (core ++ t) = hasPre ['#'] core := by
  rcases ht with rfl | ⟨f, rfl⟩
  · rw [List.append_nil]
  · cases core with
    | nil => exact absurd rfl hcne
    | cons c0 t0 => rfl

theorem processHref_core_skip (base core t u : Chars)
    (hcne : core ≠ []) (hhash : '#' ∉ core)
    (ht : t = [] ∨ ∃ f, t = '#' :: f)
    (hu : u = core ++ t)
    (hstrip : stripBy isPySpace u = u)
    (hskip : hasPre "javascript:".toList (lowerL core) = true ∨
             hasPre "mailto:".toList (lowerL core) = true ∨
             hasPre ['#'] core = true) :
    processHref base u = .skipped := by
  have hune : u ≠ [] := by
    rw [hu]
    intro he
    rw [List.append_eq_nil] at he
    exact hcne he.1
  unfold processHref
  rw [if_neg hune]
  simp only []
  rw [hstrip]
  have hcnd : (hasPre "javascript:".toList (lowerL u) = true ∨
      hasPre "mailto:".toList (lowerL u) = true ∨ hasPre ['#'] u = true) := by
    rw [hu, hasPre_u_core _ core t (by decide) ht, hasPre_u_core _ core t (by decide) ht,
        hasPre_hash_core core t hcne ht]
    exact hskip
  rw [if_pos hcnd]

theorem processHref_core_err (base : Chars) (b : ParseResult) (core t u : Chars)
    (hb : urlparseE base [] = .ok b)
    (hbs : b.scheme = "http".toList ∨ b.scheme = "https".toList)
    (hcne : core ≠ []) (hhash : '#' ∉ core)
    (ht : t = [] ∨ ∃ f, t = '#' :: f)
    (hu : u = core ++ t)
    (hstrip : stripBy isPySpace u = u)
    (hsk1 : hasPre "javascript:".toList (lowerL core) = false)
    (hsk2 : hasPre "mailto:".toList (lowerL core) = false)
    (hsk3 : hasPre ['#'] core = false)
    (e : Unit) (hr0 : urlparseE core b.scheme = .error e) :
    processHref base u = .skipped := by
  have hune : u ≠ [] := by
    rw [hu]
    intro he
    rw [List.append_eq_nil] at he
    exact hcne he.1
  unfold processHref
  rw [if_neg hune]
  simp only []
  rw [hstrip]
  have hcnd : ¬ (hasPre "javascript:".toList (lowerL u) = true ∨
      hasPre "mailto:".toList (lowerL u) = true ∨ hasPre ['#'] u = true) := by
    rw [hu, hasPre_u_core _ core t (by decide) ht, hasPre_u_core _ core t (by decide) ht,
        hasPre_hash_core core t hcne ht, hsk1, hsk2, hsk3]
    simp
  rw [if_neg hcnd]
  have hrr : urlparseE u b.scheme = .error e := by
    rcases ht with rfl | ⟨f, rfl⟩
    · rw [hu, List.append_nil]
      exact hr0
    · rw [hu, urlparseE_frag_ext core f b.scheme hhash, hr0]
  have hjoin : urljoinE base u = .error e := by
    unfold urljoinE
    rw [if_neg (base_ne_of_http base b hb hbs), if_neg hune, hb]
    simp only []
    rw [hrr]
  rw [hjoin]

theorem processHref_core_ok (base : Chars) (b : ParseResult) (core t u : Chars)
    (hb : urlparseE base [] = .ok b)
    (hbs : b.scheme = "http".toList ∨ b.scheme = "https".toList)
    (hbn : b.netloc ≠ [])
    (hcne : core ≠ []) (hhash : '#' ∉ core)
    (ht : t = [] ∨ ∃ f, t = '#' :: f)
    (hu : u = core ++ t)
    (hstrip : stripBy isPySpace u = u)
    (hsk1 : hasPre "javascript:".toList (lowerL core) = false)
    (hsk2 : hasPre "mailto:".toList (lowerL core) = false)
    (hsk3 : hasPre ['#'] core = false)
    (r0 : ParseResult) (hr0 : urlparseE core b.scheme = .ok r0)
    (hr0s : r0.scheme = b.scheme) :
    processHref base u = .canon (urlunparse { mkJoin b r0 with fragment := [] }) := by
  have hune : u ≠ [] := by
    rw [hu]
    intro he
    rw [List.append_eq_nil] at he
    exact hcne he.1
  have hfrag0 : r0.fragment = [] := urlparseE_fragment_empty core b.scheme r0 hhash hr0
  have hrel : r0.scheme ∈ usesRelative := by
    rw [hr0s]
    rcases hbs with h | h <;> (rw [h]; decide)
  unfold processHref
  rw [if_neg hune]
  simp only []
  rw [hstrip]
  have hcnd : ¬ (hasPre "javascript:".toList (lowerL u) = true ∨
      hasPre "mailto:".toList (lowerL u) = true ∨ hasPre ['#'] u = true) := by
    rw [hu, hasPre_u_core _ core t (by decide) ht, hasPre_u_core _ core t (by decide) ht,
        hasPre_hash_core core t hcne ht, hsk1, hsk2, hsk3]
    simp
  rw [if_neg hcnd]
  rcases ht with rfl | ⟨f, rfl⟩
  · have hu0 : u = core := by rw [hu, List.append_nil]
    subst hu0
    have hjoin := urljoinE_mkJoin base u b r0 (base_ne_of_http base b hb hbs)
      hcne hb hr0 hr0s hrel
    rw [hjoin]
    simp only []
    have hM : mkJoin b r0 = { mkJoin b r0 with fragment := ([] : Chars) } :=
      (setFrag_eta (mkJoin b r0) (by rw [mkJoin_fragment_eq]; exact hfrag0)).symm
    have hdf := defrag_rt (mkJoin b r0).scheme (mkJoin b r0).netloc (mkJoin b r0).path
      (mkJoin b r0).params (mkJoin b r0).query []
      (rtOK_frag (mkJoin b r0) [] (rtOK_mkJoin base u b r0 hb hr0 hr0s hbs hbn))
    conv_lhs => rw [hM]
    rw [hdf]
  · have hupar : urlparseE u b.scheme
        = .ok { r0 with fragment := f.filter (fun c => !(isUnsafeUrlCh c)) } := by
      rw [hu, urlparseE_frag_ext core f b.scheme hhash, hr0]
    have hjoin := urljoinE_mkJoin base u b
      { r0 with fragment := f.filter (fun c => !(isUnsafeUrlCh c)) }
      (base_ne_of_http base b hb hbs) hune hb hupar hr0s hrel
    rw [hjoin, mkJoin_fragment b r0 (f.filter (fun c => !(isUnsafeUrlCh c)))]
    simp only []
    have hdf := defrag_rt (mkJoin b r0).scheme (mkJoin b r0).netloc (mkJoin b r0).path
      (mkJoin b r0).params (mkJoin b r0).query (f.filter (fun c => !(isUnsafeUrlCh c)))
      (rtOK_frag (mkJoin b r0) [] (rtOK_mkJoin base core b r0 hb hr0 hr0s hbs hbn))
    rw [hdf]

/-- C6: the claim as stated is false.  The hrefs `"p "` and `"p #x"` are
identical except for their fragment part (their prefixes before the
first `#` coincide), yet canonicalized against the base
`http://www.ics.uci.edu/d/` the first yields `.../d/p` (Python's
`str.strip` removes the trailing space before `urljoin`) while the
second yields `.../d/p ` (its space sits before the fragment and
survives inside the joined URL), so the two canonical URLs differ. -/
theorem canonicalize_fragment_claim_counterexample :
    (splitFirst '#' "p ".toList).1 = (splitFirst '#' "p #x".toList).1 ∧
    processHref "http://www.ics.uci.edu/d/".toList "p ".toList ≠
      processHref "http://www.ics.uci.edu/d/".toList "p #x".toList :=
  ⟨rfl, by decide⟩

/-- C6 (amended): canonicalization is fragment-invariant for hrefs that
Python's `str.strip` leaves unchanged, provided the base URL parses with
an `http`/`https` scheme and a nonempty netloc and the href resolves in
the base's scheme (no verbatim-return branch of `urljoin`).  For all
href strings `u1`, `u2` with equal prefixes before the first `#`,
processing them against the same base gives the same outcome: both are
skipped, or both raise, or both produce the same canonical URL. -/
theorem canonicalize_fragment_invariant (base u1 u2 : Chars) (b : ParseResult)
    (h1 : stripBy isPySpace u1 = u1) (h2 : stripBy isPySpace u2 = u2)
    (hcore : (splitFirst '#' u1).1 = (splitFirst '#' u2).1)
    (hb : urlparseE base [] = .ok b)
    (hbs : b.scheme = "http".toList ∨ b.scheme = "https".toList)
    (hbn : b.netloc ≠ [])
    (hrs : ∀ r, urlparseE u1 b.scheme = .ok r → r.scheme = b.scheme) :
    processHref base u1 = processHref base u2 := by
  set core := (splitFirst '#' u1).1 with hcoredef
  have hhash : '#' ∉ core := by
    rw [hcoredef]
    exact splitFirst_fst_not_mem '#' u1
  have hd1 : ∃ t, (t = [] ∨ ∃ f, t = '#' :: f) ∧ u1 = core ++ t := by
    cases ho : (splitFirst '#' u1).2 with
    | none =>
      refine ⟨[], Or.inl rfl, ?_⟩
      rw [List.append_nil, hcoredef]
      have h3 := splitFirst_not_mem '#' u1 (splitFirst_none_not_mem '#' u1 ho)
      rw [h3]
    | some f =>
      refine ⟨'#' :: f, Or.inr ⟨f, rfl⟩, ?_⟩
      rw [hcoredef]
      exact splitFirst_decomp '#' u1 f ho
  have hd2 : ∃ t, (t = [] ∨ ∃ f, t = '#' :: f) ∧ u2 = core ++ t := by
    cases ho : (splitFirst '#' u2).2 with
    | none =>
      refine ⟨[], Or.inl rfl, ?_⟩
      rw [List.append_nil, hcore]
      have h3 := splitFirst_not_mem '#' u2 (splitFirst_none_not_mem '#' u2 ho)
      rw [h3]
    | some f =>
      refine ⟨'#' :: f, Or.inr ⟨f, rfl⟩, ?_⟩
      rw [hcore]
      exact splitFirst_decomp '#' u2 f ho
  obtain ⟨t1, ht1, hu1⟩ := hd1
  obtain ⟨t2, ht2, hu2⟩ := hd2
  by_cases hcz : core = []
  · have hsk : ∀ (u t : Chars), (t = [] ∨ ∃ f, t = '#' :: f) → u = core ++ t →
        stripBy isPySpace u = u → processHref base u = .skipped := by
      intro u t ht hu hstrip
      rcases ht with rfl | ⟨f, rfl⟩
      · have hu0 : u = [] := by rw [hu, hcz, List.nil_append]
        subst hu0
        rfl
      · have hu0 : u = '#' :: f := by rw [hu, hcz, List.nil_append]
        subst hu0
        unfold processHref
        rw [if_neg (by simp : ¬ ('#' :: f = []))]
        simp only []
        rw [hstrip]
        rw [if_pos (Or.inr (Or.inr (show hasPre ['#'] ('#' :: f) = true by rfl)))]
    rw [hsk u1 t1 ht1 hu1 h1, hsk u2 t2 ht2 hu2 h2]
  · by_cases hskip : hasPre "javascript:".toList (lowerL core) = true ∨
        hasPre "mailto:".toList (lowerL core) = true ∨ hasPre ['#'] core = true
    · rw [processHref_core_skip base core t1 u1 hcz hhash ht1 hu1 h1 hskip,
          processHref_core_skip base core t2 u2 hcz hhash ht2 hu2 h2 hskip]
    · have hsk1 : hasPre "javascript:".toList (lowerL core) = false :=
        Bool.eq_false_iff.mpr (fun hc => hskip (Or.inl hc))
      have hsk2 : hasPre "mailto:".toList (lowerL core) = false :=
        Bool.eq_false_iff.mpr (fun hc => hskip (Or.inr (Or.inl hc)))
      have hsk3 : hasPre ['#'] core = false :=
        Bool.eq_false_iff.mpr (fun hc => hskip (Or.inr (Or.inr hc)))
      cases hr0 : urlparseE core b.scheme with
      | error e =>
        rw [processHref_core_err base b core t1 u1 hb hbs hcz hhash ht1 hu1 h1
              hsk1 hsk2 hsk3 e hr0,
            processHref_core_err base b core t2 u2 hb hbs hcz hhash ht2 hu2 h2
              hsk1 hsk2 hsk3 e hr0]
      | ok r0 =>
        have hr0s : r0.scheme = b.scheme := by
          rcases ht1 with rfl | ⟨f, rfl⟩
          · apply hrs
            rw [hu1, List.append_nil]
            exact hr0
          · have hup : urlparseE u1 b.scheme
                = .ok { r0 with fragment := f.filter (fun c => !(isUnsafeUrlCh c)) } := by
              rw [hu1, urlparseE_frag_ext core f b.scheme hhash, hr0]
            exact hrs { r0 with fragment := f.filter (fun c => !(isUnsafeUrlCh c)) } hup
        rw [processHref_core_ok base b core t1 u1 hb hbs hbn hcz hhash ht1 hu1 h1
              hsk1 hsk2 hsk3 r0 hr0 hr0s,
            processHref_core_ok base b core t2 u2 hb hbs hbn hcz hhash ht2 hu2 h2
              hsk1 hsk2 hsk3 r0 hr0 hr0s]

/-- Witness for the amended C6 at concrete inputs: against the base
`http://www.ics.uci.edu/d/`, the hrefs `p` and `p#x` (equal up to the
fragment, both strip-free, resolving in the base's `http` scheme)
canonicalize identically. -/
theorem canonicalize_fragment_invariant_witness :
    processHref "http://www.ics.uci.edu/d/".toList "p".toList =
      processHref "http://www.ics.uci.edu/d/".toList "p#x".toList :=
  canonicalize_fragment_invariant "http://www.ics.uci.edu/d/".toList
    "p".toList "p#x".toList
    ⟨"http".toList, "www.ics.uci.edu".toList, "/d/".toList, [], [], []⟩
    rfl rfl rfl rfl (Or.inl rfl) (by decide)
    (by
      intro r hr
      rw [show urlparseE "p".toList
          ((⟨"http".toList, "www.ics.uci.edu".toList, "/d/".toList, [], [], []⟩ :
            ParseResult)).scheme
          = .ok ⟨"http".toList, [], "p".toList, [], [], []⟩ from rfl] at hr
      have h3 := Except.ok.inj hr
      rw [← h3])
end Crawler
